import Mathlib

/-!
# Verification model of the lispBM CPS evaluator / scheduler core

The repository ships only the public header `src/lispBM/lispBM/include/eval_cps.h`
(the implementation file `eval_cps.c` is not part of the source tree), so the
behavioural definitions below are modelled from the specification (spec.md),
while the header fixes the data-model shape: the `eval_context_t` fields
(`program`, `curr_exp`, `curr_env`, `mailbox`, `r`, `done`, `app_cont`, `K`,
`timestamp : uint32_t`, `sleep_us : uint32_t`, `id`), the evaluator state
constants `EVAL_CPS_STATE_{INIT,PAUSED,RUNNING,STEP,KILL} = 0..4`, and the
signatures/return conventions of the control API (`lbm_eval_init`,
`lbm_eval_program[_ext]`, `lbm_run_eval`, `lbm_pause_eval`, `lbm_step_eval`,
`lbm_continue_eval`, `lbm_kill_eval`, `lbm_send_message`,
`lbm_remove_done_ctx`, the uint32 usleep/timestamp callbacks).
-/

namespace LbmModel

/-- `uint32_t` modulus: the header declares `timestamp`, `sleep_us` and the
usleep/timestamp callback values as `uint32_t`. -/
def UINT32 : Nat := 2 ^ 32

/-- Guest evaluation error kinds (spec section 4.2: unbound symbol, type
mismatch, stack exhaustion). -/
inductive ErrKind where
  | stackOverflow
  | unboundSymbol
  | typeError
deriving DecidableEq, Repr

/-- Modelled from the spec: guest expressions of the symbolic-expression
language handled by the CPS evaluator (spec section 4.2 lists self-evaluating
atoms, `if`, `lambda`, application, and the process-control primitives
yield/sleep/spawn/receive).  `eqz` stands in for the built-in function table
(a zero-test built-in) and `add` for the arithmetic built-ins. -/
inductive Expr where
  | num (n : Int)
  | boolE (b : Bool)
  | var (s : String)
  | ifE (c t e : Expr)
  | add (a b : Expr)
  | eqz (a : Expr)
  | lam (x : String) (body : Expr)
  | app (f a : Expr)
  | recv
  | sleepE (us : Nat)
  | yieldE
  | spawnE (body : Expr)
deriving DecidableEq, Repr

/-- Modelled from the spec: the opaque tagged value type (`lbm_value`),
restricted to what the evaluator core produces: a no-value sentinel,
integers, booleans, closures, and the error-tagged terminal values of
spec section 4.2. -/
inductive LVal where
  | nilV
  | I (n : Int)
  | B (b : Bool)
  | Clo (x : String) (body : Expr) (env : List (String × LVal))
  | Err (k : ErrKind)

/-- Environment lookup (innermost binding wins), used by the `var` case of
the evaluator. -/
def lookupEnv : List (String × LVal) → String → Option LVal
  | [], _ => none
  | (y, v) :: rest, x => if y = x then some v else lookupEnv rest x

/-- Modelled from the spec: continuation frames, "a tagged record pushed onto
`K`, pairing a continuation kind with the captured data needed to resume"
(spec section 3).  `doneF` is the sentinel bottom frame. -/
inductive Frame where
  | doneF
  | ifF (t e : Expr) (env : List (String × LVal))
  | addLF (b : Expr) (env : List (String × LVal))
  | addRF (v : LVal)
  | eqzF
  | appLF (a : Expr) (env : List (String × LVal))
  | appRF (f : LVal)

/-- The `eval_context_t` struct of `eval_cps.h` (lines 33-49): one lispbm
process.  `K` is the continuation stack together with its capacity `ksize`
(each context owns an independently sized stack, spec section 4.1); the
intrusive `prev`/`next` links are represented by queue membership in
`SchedState` instead (spec section 9 suggests exactly this replacement). -/
structure EvalContext where
  program : List Expr
  curr_exp : Expr
  curr_env : List (String × LVal)
  mailbox : List LVal
  r : LVal
  done : Bool
  app_cont : Bool
  K : List Frame
  ksize : Nat
  timestamp : Nat
  sleep_us : Nat
  id : Nat

/-- Modelled from the spec: reason a context is parked in the blocked queue
(spec section 4.2: `Blocked(Mailbox)` or `Blocked(TimedSleep(us))`). -/
inductive BlockReason where
  | mailboxB
  | timedSleep (us : Nat)

/-- Modelled from the spec: `StepOutcome` of the single-step contract
(spec section 4.2), plus `spawnedO` for the spawn primitive which must be
completed by the scheduler (it allocates the new context). -/
inductive StepOutcome where
  | continueO
  | blockedO (why : BlockReason)
  | finishedO (v : LVal)
  | errorO (k : ErrKind)
  | spawnedO (body : Expr)

/-- Push a frame onto a context's continuation stack; fails (returns `none`)
when the stack is at capacity.  The stack never silently truncates
(spec section 4.1). -/
def pushK (c : EvalContext) (f : Frame) : Option (List Frame) :=
  if c.K.length < c.ksize then some (f :: c.K) else none

/-- Modelled from the spec: the CPS evaluator single step,
`step(context) -> StepOutcome` (spec section 4.2).  With `app_cont = false`
the current expression is inspected: self-evaluating forms set `r` and enter
apply-continuation mode, compound forms push the frame encoding their
remaining work and descend; with `app_cont = true` the top frame of `K` is
popped and resumed with `r`; popping the sentinel with no program text left
sets `done := true` and reports `Finished r`.  Process-control primitives
report `Blocked`/`spawned` outcomes.  A failed push reports stack
exhaustion with the context unchanged (nothing is truncated). -/
def stepCtx (c : EvalContext) : EvalContext × StepOutcome :=
  match c.app_cont with
  | true =>
    match c.K with
    | [] => (c, .errorO .typeError)
    | .doneF :: rest =>
      match c.program with
      | [] => ({c with done := true, K := rest}, .finishedO c.r)
      | p :: ps => ({c with program := ps, curr_exp := p, app_cont := false}, .continueO)
    | .ifF t e env :: rest =>
      match c.r with
      | .B true => ({c with K := rest, curr_exp := t, curr_env := env, app_cont := false},
                    .continueO)
      | .B false => ({c with K := rest, curr_exp := e, curr_env := env, app_cont := false},
                     .continueO)
      | _ => (c, .errorO .typeError)
    | .addLF b env :: rest =>
      ({c with K := .addRF c.r :: rest, curr_exp := b, curr_env := env, app_cont := false},
       .continueO)
    | .addRF v :: rest =>
      match v, c.r with
      | .I a, .I b => ({c with K := rest, r := .I (a + b)}, .continueO)
      | _, _ => (c, .errorO .typeError)
    | .eqzF :: rest =>
      match c.r with
      | .I a => ({c with K := rest, r := .B (decide (a = 0))}, .continueO)
      | _ => (c, .errorO .typeError)
    | .appLF a env :: rest =>
      ({c with K := .appRF c.r :: rest, curr_exp := a, curr_env := env, app_cont := false},
       .continueO)
    | .appRF f :: rest =>
      match f with
      | .Clo x body cenv =>
        ({c with K := rest, curr_exp := body, curr_env := (x, c.r) :: cenv, app_cont := false},
         .continueO)
      | _ => (c, .errorO .typeError)
  | false =>
    match c.curr_exp with
    | .num n => ({c with r := .I n, app_cont := true}, .continueO)
    | .boolE b => ({c with r := .B b, app_cont := true}, .continueO)
    | .var x =>
      match lookupEnv c.curr_env x with
      | some v => ({c with r := v, app_cont := true}, .continueO)
      | none => (c, .errorO .unboundSymbol)
    | .ifE cond t e =>
      match pushK c (.ifF t e c.curr_env) with
      | some Kp => ({c with K := Kp, curr_exp := cond}, .continueO)
      | none => (c, .errorO .stackOverflow)
    | .add a b =>
      match pushK c (.addLF b c.curr_env) with
      | some Kp => ({c with K := Kp, curr_exp := a}, .continueO)
      | none => (c, .errorO .stackOverflow)
    | .eqz a =>
      match pushK c .eqzF with
      | some Kp => ({c with K := Kp, curr_exp := a}, .continueO)
      | none => (c, .errorO .stackOverflow)
    | .lam x body => ({c with r := .Clo x body c.curr_env, app_cont := true}, .continueO)
    | .app f a =>
      match pushK c (.appLF a c.curr_env) with
      | some Kp => ({c with K := Kp, curr_exp := f}, .continueO)
      | none => (c, .errorO .stackOverflow)
    | .recv =>
      match c.mailbox with
      | m :: rest => ({c with r := m, mailbox := rest, app_cont := true}, .continueO)
      | [] => (c, .blockedO .mailboxB)
    | .sleepE us =>
      ({c with r := .nilV, app_cont := true, sleep_us := us % UINT32},
       .blockedO (.timedSleep (us % UINT32)))
    | .yieldE => ({c with r := .nilV, app_cont := true}, .blockedO (.timedSleep 0))
    | .spawnE body => (c, .spawnedO body)

/-- Run `n` evaluator steps inside one context, requiring every outcome to be
`Continue`; `none` if any step blocks, finishes, errors or spawns. -/
def stepsOk : Nat → EvalContext → Option EvalContext
  | 0, c => some c
  | n + 1, c =>
    match stepCtx c with
    | (c', .continueO) => stepsOk n c'
    | _ => none

/-- Like `stepsOk` but also reports the maximum length the continuation stack
`K` reaches along the run (including the start and end states). -/
def stepsMaxK : Nat → EvalContext → Option (EvalContext × Nat)
  | 0, c => some (c, c.K.length)
  | n + 1, c =>
    match stepCtx c with
    | (c', .continueO) => (stepsMaxK n c').map (fun p => (p.1, max c.K.length p.2))
    | _ => none

/-- The evaluator-global state machine of `eval_cps.h` lines 24-28:
`EVAL_CPS_STATE_{INIT,PAUSED,RUNNING,STEP,KILL}`. -/
inductive EvalState where
  | INIT
  | PAUSED
  | RUNNING
  | STEP
  | KILL
deriving DecidableEq, Repr

/-- Numeric codes of the evaluator states, exactly the `EVAL_CPS_STATE_*`
macros of the header (0, 1, 2, 3, 4). -/
def evalStateCode : EvalState → Nat
  | .INIT => 0
  | .PAUSED => 1
  | .RUNNING => 2
  | .STEP => 3
  | .KILL => 4

/-- Modelled from the spec: the process-wide scheduler state (spec section 3,
"Evaluator global state"): the three queues (ready, blocked, done), the
evaluator state machine, the context-id source, the free context/stack
memory pool, the clock value last reported by the `timestamp_us` callback,
and the log of contexts for which the `ctx_done` callback has fired. -/
structure SchedState where
  ready : List EvalContext
  blocked : List (EvalContext × BlockReason)
  doneQ : List EvalContext
  evState : EvalState
  nextCid : Nat
  freeMem : Nat
  time : Nat
  doneLog : List Nat

/-- `lbm_eval_init` (header line 71): one-time initialization; empty queues,
state `INIT`, context ids start at 1 (0 is the reserved failure id), a free
memory pool of `mem` stack slots. -/
def lbm_eval_init (mem : Nat) : SchedState :=
  { ready := [], blocked := [], doneQ := [], evState := .INIT,
    nextCid := 1, freeMem := mem, time := 0, doneLog := [] }

/-- Modelled from the spec: default continuation-stack size used by
`lbm_eval_program` (the spec fixes no value; 256 slots is representative). -/
def DEFAULT_STACK_SIZE : Nat := 256

/-- A freshly created context (spec section 4.5): state Ready, fresh
continuation stack holding only the sentinel bottom frame, empty mailbox. -/
def newCtx (lisp : Expr) (stack_size : Nat) (cid : Nat) (now : Nat) : EvalContext :=
  { program := [], curr_exp := lisp, curr_env := [], mailbox := [], r := .nilV,
    done := false, app_cont := false, K := [.doneF], ksize := stack_size,
    timestamp := now % UINT32, sleep_us := 0, id := cid }

/-- `lbm_eval_program_ext` (header lines 96-102), modelled from the spec:
allocates a context in state Ready with a fresh continuation stack of the
given size and returns its id, or returns 0 (and changes nothing) when no
stack/context memory is available. -/
def lbm_eval_program_ext (s : SchedState) (lisp : Expr) (stack_size : Nat) :
    Nat × SchedState :=
  if stack_size ≤ s.freeMem then
    (s.nextCid,
     { s with ready := s.ready ++ [newCtx lisp stack_size s.nextCid s.time],
              nextCid := s.nextCid + 1,
              freeMem := s.freeMem - stack_size })
  else (0, s)

/-- `lbm_eval_program` (header lines 89-95): launch with the default
continuation-stack size. -/
def lbm_eval_program (s : SchedState) (lisp : Expr) : Nat × SchedState :=
  lbm_eval_program_ext s lisp DEFAULT_STACK_SIZE

/-- Deliver a message to the first ready context with the given id;
`none` when no ready context has that id. -/
def sendReady : List EvalContext → Nat → LVal → Option (List EvalContext)
  | [], _, _ => none
  | c :: cs, cid, msg =>
    if c.id = cid then some ({c with mailbox := c.mailbox ++ [msg]} :: cs)
    else (sendReady cs cid msg).map (c :: ·)

/-- Deliver a message to the first blocked context with the given id.
Returns the updated blocked queue and, when the target was blocked on its
mailbox, the woken context that must move to the ready queue. -/
def sendBlocked : List (EvalContext × BlockReason) → Nat → LVal →
    Option (List (EvalContext × BlockReason) × Option EvalContext)
  | [], _, _ => none
  | (c, why) :: cs, cid, msg =>
    if c.id = cid then
      match why with
      | .mailboxB => some (cs, some {c with mailbox := c.mailbox ++ [msg]})
      | .timedSleep us => some (({c with mailbox := c.mailbox ++ [msg]}, .timedSleep us) :: cs, none)
    else (sendBlocked cs cid msg).map (fun p => ((c, why) :: p.1, p.2))

/-- `lbm_send_message` (header lines 222-228), modelled from the spec
(section 4.4): look the target up by id across the ready and blocked queues
(done contexts cannot receive); on success (return 1) append the message to
its mailbox and, if the target was blocked on its mailbox, move it to the
ready queue; on failure return 0 and change nothing. -/
def lbm_send_message (s : SchedState) (cid : Nat) (msg : LVal) : Nat × SchedState :=
  match sendReady s.ready cid msg with
  | some r' => (1, {s with ready := r'})
  | none =>
    match sendBlocked s.blocked cid msg with
    | some (b', some woken) => (1, {s with blocked := b', ready := s.ready ++ [woken]})
    | some (b', none) => (1, {s with blocked := b'})
    | none => (0, s)

/-- Remove the first context with the given id from a queue, returning it and
the remaining queue. -/
def removeQ : List EvalContext → Nat → Option (EvalContext × List EvalContext)
  | [], _ => none
  | c :: cs, cid =>
    if c.id = cid then some (c, cs)
    else (removeQ cs cid).map (fun p => (p.1, c :: p.2))

/-- `lbm_remove_done_ctx` (header lines 72-79), modelled from the spec:
remove a finished context from the done queue, hand its result to the
caller, free its memory; fails (returns `none` for the value) when the id
is not in the done queue, changing nothing. -/
def lbm_remove_done_ctx (s : SchedState) (cid : Nat) : Option LVal × SchedState :=
  match removeQ s.doneQ cid with
  | some (c, d') => (some c.r, {s with doneQ := d', freeMem := s.freeMem + c.ksize})
  | none => (none, s)

/-- Modelled from the spec (claim sources and spec section 4.3): wake time of
a timed-blocked context; `timestamp + sleep_us` in uint32 arithmetic. -/
def wakeTime (ts us : Nat) : Nat := (ts + us) % UINT32

/-- Modelled from the spec: the scheduler's wake comparison
`now >= timestamp + sleep_us`, carried out on uint32 values, hence modulo
`2^32`. -/
def wakeReady (now ts us : Nat) : Bool := decide (wakeTime ts us ≤ now)

/-- One polling pass over the blocked queue (spec section 4.3: "the scheduler
must re-check blocked timed contexts every pass"): keep mailbox-blocked
contexts and pending sleepers, move due sleepers out (to be appended to the
ready queue). -/
def wakeSplit (now : Nat) : List (EvalContext × BlockReason) →
    List (EvalContext × BlockReason) × List EvalContext
  | [] => ([], [])
  | (c, .mailboxB) :: rest =>
    ((c, .mailboxB) :: (wakeSplit now rest).1, (wakeSplit now rest).2)
  | (c, .timedSleep us) :: rest =>
    if wakeReady now c.timestamp c.sleep_us then
      ((wakeSplit now rest).1, c :: (wakeSplit now rest).2)
    else ((c, .timedSleep us) :: (wakeSplit now rest).1, (wakeSplit now rest).2)

/-- Modelled from the spec: one pass of the scheduler loop (spec sections 2
and 4.3): poll blocked timed contexts, then give the head of the ready queue
one evaluator step and relocate it according to the outcome: Continue
requeues at the back (round-robin), Blocked moves it to the blocked queue
(stamping the block time for timed sleeps), Finished/Error move it to the
done queue with the (error-tagged) result and fire the `ctx_done` callback,
and spawn allocates a child context and resumes the caller with the child id
(0 when no memory is available). -/
def doOnePass (s : SchedState) : SchedState :=
  let bw := wakeSplit s.time s.blocked
  match s.ready ++ bw.2 with
  | [] => {s with ready := [], blocked := bw.1}
  | c :: rest =>
    match stepCtx c with
    | (c', .continueO) => {s with ready := rest ++ [c'], blocked := bw.1}
    | (c', .blockedO .mailboxB) =>
      {s with ready := rest, blocked := bw.1 ++ [(c', .mailboxB)]}
    | (c', .blockedO (.timedSleep us)) =>
      {s with ready := rest,
              blocked := bw.1 ++
                [({c' with timestamp := s.time % UINT32, sleep_us := us % UINT32},
                  .timedSleep us)]}
    | (c', .finishedO v) =>
      {s with ready := rest, blocked := bw.1,
              doneQ := s.doneQ ++ [{c' with done := true, r := v}],
              doneLog := s.doneLog ++ [c'.id]}
    | (c', .errorO k) =>
      {s with ready := rest, blocked := bw.1,
              doneQ := s.doneQ ++ [{c' with done := true, r := .Err k}],
              doneLog := s.doneLog ++ [c'.id]}
    | (c', .spawnedO body) =>
      if DEFAULT_STACK_SIZE ≤ s.freeMem then
        {s with ready := rest ++ [{c' with r := .I s.nextCid, app_cont := true},
                                  newCtx body DEFAULT_STACK_SIZE s.nextCid s.time],
                blocked := bw.1,
                nextCid := s.nextCid + 1,
                freeMem := s.freeMem - DEFAULT_STACK_SIZE}
      else {s with ready := rest ++ [{c' with r := .I 0, app_cont := true}], blocked := bw.1}

/-- Modelled from the spec: one iteration of the scheduler loop, dispatching
on the evaluator state machine (spec section 4.3): `RUNNING` performs a pass;
the transient `STEP` performs one pass and auto-reverts to `PAUSED`;
`PAUSED` and `INIT` advance no context; `KILL` does nothing (the loop
exits). -/
def schedIter (s : SchedState) : SchedState :=
  match s.evState with
  | .RUNNING => doOnePass s
  | .STEP => {doOnePass s with evState := .PAUSED}
  | _ => s

/-- Iterate the scheduler `n` times. -/
def schedIterN : Nat → SchedState → SchedState
  | 0, s => s
  | n + 1, s => schedIterN n (schedIter s)

/-- `lbm_pause_eval` (header line 113): request `PAUSED`; `KILL` is
terminal. -/
def lbm_pause_eval (s : SchedState) : SchedState :=
  if s.evState = .KILL then s else {s with evState := .PAUSED}

/-- `lbm_continue_eval` (header line 123): resume free running from
`PAUSED`. -/
def lbm_continue_eval (s : SchedState) : SchedState :=
  if s.evState = .PAUSED then {s with evState := .RUNNING} else s

/-- `lbm_step_eval` (header lines 114-119): from `PAUSED`, request a single
evaluation step (the transient `STEP` state). -/
def lbm_step_eval (s : SchedState) : SchedState :=
  if s.evState = .PAUSED then {s with evState := .STEP} else s

/-- `lbm_kill_eval` (header line 127): kill the evaluator on the next
iteration. -/
def lbm_kill_eval (s : SchedState) : SchedState :=
  {s with evState := .KILL}

/-- `lbm_get_eval_state` (header line 132). -/
def lbm_get_eval_state (s : SchedState) : Nat := evalStateCode s.evState

/-- Modelled from the spec: the clock callback installed via
`lbm_set_timestamp_us_callback` (header lines 167-171) reports a uint32
microsecond timestamp; this records its latest reading. -/
def lbm_set_time (s : SchedState) (t : Nat) : SchedState :=
  {s with time := t % UINT32}

/-- The scheduler loop inside `lbm_run_eval`, fuel-bounded: iterate until the
evaluator state becomes `KILL`, at which point the loop exits with the state
unchanged. -/
def runLoop : Nat → SchedState → SchedState
  | 0, s => s
  | n + 1, s => if s.evState = .KILL then s else runLoop n (schedIter s)

/-- `lbm_run_eval` (header lines 104-107), modelled from the spec: blocking
entry point; moves `INIT` to `RUNNING` and runs the scheduler loop until the
evaluator state becomes `KILL`. -/
def lbm_run_eval (fuel : Nat) (s : SchedState) : SchedState :=
  runLoop fuel (if s.evState = .INIT then {s with evState := .RUNNING} else s)

/-- Modelled from the spec: the reference direct (recursive) evaluation of
the round-trip property (spec section 8), fuel-bounded, paired with the
exact continuation-stack headroom the CPS machine needs for the same
evaluation (0 for self-evaluating forms; a compound form needs one slot for
its own frame above each operand evaluation).  Process-control primitives
(receive, sleep, yield, spawn) are outside this fragment and evaluate to
`none`, as do all guest errors. -/
def refEvalD : Nat → List (String × LVal) → Expr → Option (LVal × Nat)
  | 0, _, _ => none
  | fuel + 1, env, e =>
    match e with
    | .num n => some (.I n, 0)
    | .boolE b => some (.B b, 0)
    | .var x => (lookupEnv env x).map (fun v => (v, 0))
    | .lam x body => some (.Clo x body env, 0)
    | .ifE cond t e' =>
      match refEvalD fuel env cond with
      | some (.B true, dc) => (refEvalD fuel env t).map (fun p => (p.1, max (dc + 1) p.2))
      | some (.B false, dc) => (refEvalD fuel env e').map (fun p => (p.1, max (dc + 1) p.2))
      | _ => none
    | .eqz a =>
      match refEvalD fuel env a with
      | some (.I n, da) => some (.B (decide (n = 0)), da + 1)
      | _ => none
    | .add a b =>
      match refEvalD fuel env a, refEvalD fuel env b with
      | some (.I x, da), some (.I y, db) => some (.I (x + y), max (da + 1) (db + 1))
      | _, _ => none
    | .app f a =>
      match refEvalD fuel env f, refEvalD fuel env a with
      | some (.Clo x body cenv, df), some (v, da) =>
        (refEvalD fuel ((x, v) :: cenv) body).map
          (fun p => (p.1, max (df + 1) (max (da + 1) p.2)))
      | _, _ => none
    | _ => none

/-- The value computed by the reference direct evaluation. -/
def refEval (fuel : Nat) (env : List (String × LVal)) (e : Expr) : Option LVal :=
  (refEvalD fuel env e).map Prod.fst

/-- The ids of all existing contexts, queue by queue (ready, blocked,
done). -/
def qids (s : SchedState) : List Nat :=
  s.ready.map EvalContext.id ++ s.blocked.map (fun p => p.1.id) ++ s.doneQ.map EvalContext.id

/-- All existing contexts, in queue order. -/
def allCtxs (s : SchedState) : List EvalContext :=
  s.ready ++ s.blocked.map Prod.fst ++ s.doneQ

/-- The scheduler-state invariant of spec sections 3 and 8: every existing
context is in exactly one of the three queues (its id occurs exactly once
across them), `done == true` exactly on the done queue, and every issued id
is nonzero and below the id source. -/
def ContextInvariant (s : SchedState) : Prop :=
  (qids s).Nodup ∧
  (∀ c ∈ s.ready, c.done = false) ∧
  (∀ p ∈ s.blocked, p.1.done = false) ∧
  (∀ c ∈ s.doneQ, c.done = true) ∧
  (∀ i ∈ qids s, 0 < i ∧ i < s.nextCid) ∧
  1 ≤ s.nextCid

/-- Scheduler states reachable from initialization through the external
control API and the scheduler loop. -/
inductive Reachable : SchedState → Prop where
  | init (mem : Nat) : Reachable (lbm_eval_init mem)
  | launch {s : SchedState} (e : Expr) (n : Nat) :
      Reachable s → Reachable (lbm_eval_program_ext s e n).2
  | send {s : SchedState} (cid : Nat) (m : LVal) :
      Reachable s → Reachable (lbm_send_message s cid m).2
  | remove {s : SchedState} (cid : Nat) :
      Reachable s → Reachable (lbm_remove_done_ctx s cid).2
  | iter {s : SchedState} : Reachable s → Reachable (schedIter s)
  | pause {s : SchedState} : Reachable s → Reachable (lbm_pause_eval s)
  | cont {s : SchedState} : Reachable s → Reachable (lbm_continue_eval s)
  | oneStep {s : SchedState} : Reachable s → Reachable (lbm_step_eval s)
  | kill {s : SchedState} : Reachable s → Reachable (lbm_kill_eval s)
  | clock {s : SchedState} (t : Nat) : Reachable s → Reachable (lbm_set_time s t)

/-- The externally observable evaluation state of a context: its result
register `r`, current expression and continuation stack (the quantities the
pause/step contract of spec section 8 freezes). -/
def ctxView (c : EvalContext) : LVal × Expr × List Frame := (c.r, c.curr_exp, c.K)

/-- Observe context `cid`: the view of the first context with that id across
the three queues. -/
def obs (s : SchedState) (cid : Nat) : Option (LVal × Expr × List Frame) :=
  ((allCtxs s).find? (fun c => c.id == cid)).map ctxView

/-- Launch a batch of programs (each with its own stack size) in order,
collecting the returned context ids. -/
def launchN : SchedState → List (Expr × Nat) → List Nat × SchedState
  | s, [] => ([], s)
  | s, (e, n) :: ps =>
    let r := lbm_eval_program_ext s e n
    let rest := launchN r.2 ps
    (r.1 :: rest.1, rest.2)

/-- `c` executes one mailbox receive operation (the `receive` primitive of
spec section 4.2). -/
def doReceive (c : EvalContext) : EvalContext × StepOutcome :=
  stepCtx {c with curr_exp := .recv, app_cont := false}

/-- Left-nested additions `(+ (+ ... (+ 1 0) ...) 0)` of the given depth:
a process-control-free program whose continuation-stack need grows with the
depth. -/
def deepAdd : Nat → Expr
  | 0 => .num 1
  | n + 1 => .add (deepAdd n) (.num 0)

/-- Body of the self-recursive guest loop: `if (eqz n) 42 ((f f) (+ n -1))`;
the recursive call is in tail position. -/
def loopBody : Expr :=
  .ifE (.eqz (.var "n")) (.num 42)
    (.app (.app (.var "f") (.var "f")) (.add (.var "n") (.num (-1))))

/-- The loop combinator `(lambda (f) (lambda (n) loopBody))`. -/
def loopFun : Expr := .lam "f" (.lam "n" loopBody)

/-- The self-recursive guest loop counting `n` down to 0 by self-application:
`((loopFun loopFun) n)`. -/
def loopProg (n : Nat) : Expr := .app (.app loopFun loopFun) (.num n)

/-- The closure value of `loopFun` in the empty environment. -/
def loopClo : LVal := .Clo "f" (.lam "n" loopBody) []

/-- The context configuration at the head of each loop iteration: about to
reduce `loopBody` with `n` bound to the remaining iteration count, on a
continuation stack holding only the sentinel, with stack capacity 8. -/
def loopCtx (n : Int) : EvalContext :=
  { program := [], curr_exp := loopBody,
    curr_env := [("n", .I n), ("f", loopClo)], mailbox := [], r := .I n,
    done := false, app_cont := false, K := [.doneF], ksize := 8,
    timestamp := 0, sleep_us := 0, id := 1 }

/-- The context configuration after the loop counter has reached 0 and the
result 42 has been produced: about to pop the sentinel frame. -/
def loopFinal : EvalContext :=
  {loopCtx 0 with curr_exp := .num 42, r := .I 42, app_cont := true}

/-- A context whose next step must push a frame onto a continuation stack
that is already at capacity (capacity 1, holding the sentinel): its step
exhausts the stack. -/
def ctxOverflow : EvalContext :=
  ⟨[], .add (.num 1) (.num 2), [], [], .nilV, false, false, [.doneF], 1, 0, 0, 1⟩

/-- A sibling context (id 2) computing the program `7`. -/
def ctxSibling : EvalContext := newCtx (.num 7) 4 2 0

/-- Two-context scenario: the overflowing context and a healthy sibling
share the running scheduler. -/
def sIsolation : SchedState :=
  {lbm_eval_init 0 with ready := [ctxOverflow, ctxSibling], evState := .RUNNING}

/-! ## Basic lemmas about context stepping -/

theorem stepCtx_id (c : EvalContext) : (stepCtx c).1.id = c.id := by
  obtain ⟨p, ce, cv, mb, r0, dn, ac, K, ks, ts, su, i⟩ := c
  unfold stepCtx
  dsimp only
  repeat' split
  all_goals rfl

theorem stepCtx_error_eq {c c' : EvalContext} {k : ErrKind}
    (h : stepCtx c = (c', .errorO k)) : c' = c := by
  obtain ⟨p, ce, cv, mb, r0, dn, ac, K, ks, ts, su, i⟩ := c
  unfold stepCtx at h
  dsimp only at h
  repeat' (split at h)
  all_goals simp_all

theorem stepCtx_done (c : EvalContext) :
    (stepCtx c).1.done = c.done ∨
    ∃ v, (stepCtx c).2 = .finishedO v ∧ (stepCtx c).1.done = true := by
  obtain ⟨p, ce, cv, mb, r0, dn, ac, K, ks, ts, su, i⟩ := c
  unfold stepCtx
  dsimp only
  repeat' split
  all_goals first
  | exact Or.inl rfl
  | exact Or.inr ⟨_, rfl, rfl⟩

theorem stepsOk_succ_cont {c c1 : EvalContext} (n : Nat)
    (hs : stepCtx c = (c1, .continueO)) :
    stepsOk (n + 1) c = stepsOk n c1 := by
  show (match stepCtx c with
        | (c', .continueO) => stepsOk n c'
        | _ => none) = stepsOk n c1
  rw [hs]

theorem stepsOk_trans {m n : Nat} {c c' c'' : EvalContext}
    (h1 : stepsOk m c = some c') (h2 : stepsOk n c' = some c'') :
    stepsOk (m + n) c = some c'' := by
  induction m generalizing c with
  | zero =>
    obtain rfl : c = c' := by simpa [stepsOk] using h1
    simpa using h2
  | succ m ih =>
    rw [stepsOk] at h1
    rcases hs : stepCtx c with ⟨c1, o⟩
    rw [hs] at h1
    cases o with
    | continueO =>
      simp only [] at h1
      have heq : m + 1 + n = (m + n) + 1 := by omega
      rw [heq, stepsOk_succ_cont (m + n) hs]
      exact ih h1
    | blockedO w => simp at h1
    | finishedO v => simp at h1
    | errorO k => simp at h1
    | spawnedO b => simp at h1

theorem stepsMaxK_succ_cont {c c1 : EvalContext} (n : Nat)
    (hs : stepCtx c = (c1, .continueO)) :
    stepsMaxK (n + 1) c =
      (stepsMaxK n c1).map (fun p => (p.1, max c.K.length p.2)) := by
  show (match stepCtx c with
        | (c', .continueO) =>
          (stepsMaxK n c').map (fun p : EvalContext × Nat => (p.1, max c.K.length p.2))
        | _ => none) = _
  rw [hs]

theorem stepsMaxK_start_le {n : Nat} {c c' : EvalContext} {a : Nat}
    (h : stepsMaxK n c = some (c', a)) : c.K.length ≤ a := by
  cases n with
  | zero =>
    simp only [stepsMaxK, Option.some.injEq, Prod.mk.injEq] at h
    omega
  | succ n =>
    rw [stepsMaxK] at h
    rcases hs : stepCtx c with ⟨c1, o⟩
    rw [hs] at h
    cases o with
    | continueO =>
      simp only [Option.map_eq_some'] at h
      obtain ⟨p, _, hp⟩ := h
      have := congrArg Prod.snd hp
      simp only [Prod.snd] at this
      omega
    | blockedO w => simp at h
    | finishedO v => simp at h
    | errorO k => simp at h
    | spawnedO b => simp at h

theorem stepsMaxK_trans {m n : Nat} {c c' c'' : EvalContext} {a b : Nat}
    (h1 : stepsMaxK m c = some (c', a)) (h2 : stepsMaxK n c' = some (c'', b)) :
    stepsMaxK (m + n) c = some (c'', max a b) := by
  induction m generalizing c a with
  | zero =>
    simp only [stepsMaxK, Option.some.injEq, Prod.mk.injEq] at h1
    obtain ⟨rfl, rfl⟩ := h1
    rw [Nat.zero_add, h2]
    have hK : c.K.length ≤ b := stepsMaxK_start_le h2
    rw [Nat.max_eq_right hK]
  | succ m ih =>
    rw [stepsMaxK] at h1
    rcases hs : stepCtx c with ⟨c1, o⟩
    rw [hs] at h1
    cases o with
    | continueO =>
      simp only [Option.map_eq_some'] at h1
      obtain ⟨⟨p1, p2⟩, hp, hq⟩ := h1
      simp only [Prod.mk.injEq] at hq
      obtain ⟨rfl, rfl⟩ := hq
      have heq : m + 1 + n = (m + n) + 1 := by omega
      rw [heq, stepsMaxK_succ_cont (m + n) hs, ih hp]
      simp [Nat.max_assoc]
    | blockedO w => simp at h1
    | finishedO v => simp at h1
    | errorO k => simp at h1
    | spawnedO b => simp at h1

theorem stepsMaxK_imp_stepsOk {n : Nat} {c c' : EvalContext} {a : Nat}
    (h : stepsMaxK n c = some (c', a)) : stepsOk n c = some c' := by
  induction n generalizing c a with
  | zero =>
    simp only [stepsMaxK, Option.some.injEq, Prod.mk.injEq] at h
    simp [stepsOk, h.1]
  | succ n ih =>
    rw [stepsMaxK] at h
    rcases hs : stepCtx c with ⟨c1, o⟩
    rw [hs] at h
    cases o with
    | continueO =>
      simp only [Option.map_eq_some'] at h
      obtain ⟨⟨p1, p2⟩, hp, hq⟩ := h
      simp only [Prod.mk.injEq] at hq
      obtain ⟨rfl, -⟩ := hq
      rw [stepsOk_succ_cont n hs]
      exact ih hp
    | blockedO w => simp at h
    | finishedO v => simp at h
    | errorO k => simp at h
    | spawnedO b => simp at h

/-! ## C1: kill terminates the scheduler loop -/

/-- C1: after `lbm_kill_eval` the evaluator state is `KILL`; the scheduler
loop inside `lbm_run_eval` exits (every further iteration is the identity)
and `lbm_run_eval` returns the killed state unchanged; in particular no
further `ctx_done` callbacks fire after the return (the done-callback log
never grows again). -/
theorem kill_halts_run_eval (s : SchedState) (fuel : Nat) :
    (lbm_kill_eval s).evState = .KILL ∧
    schedIter (lbm_kill_eval s) = lbm_kill_eval s ∧
    runLoop fuel (lbm_kill_eval s) = lbm_kill_eval s ∧
    lbm_run_eval fuel (lbm_kill_eval s) = lbm_kill_eval s ∧
    (lbm_run_eval fuel (lbm_kill_eval s)).doneLog = s.doneLog := by
  have h2 : runLoop fuel (lbm_kill_eval s) = lbm_kill_eval s := by
    cases fuel <;> simp [runLoop, lbm_kill_eval]
  have h3 : lbm_run_eval fuel (lbm_kill_eval s) = lbm_kill_eval s := by
    rw [lbm_run_eval]
    simpa [lbm_kill_eval] using h2
  exact ⟨rfl, rfl, h2, h3, by rw [h3]; rfl⟩

/-! ## C10: uint32 timestamps and wake-time wraparound -/

/-- C10: all timed-sleep bookkeeping is uint32 microseconds: a stored
`sleep_us` is always reduced modulo `2^32` (so requested durations are
representable only up to `2^32 - 1`), `newCtx` stamps a uint32 timestamp,
and the wake comparison is `timestamp + sleep_us <= now` modulo `2^32`.
Consequently wrap changes readiness: a context blocked at
`timestamp = 2^32 - 500` for `1000` us is woken by the scheduler's polling
pass at clock `2^32 - 400` — only 100 us after its block time — while a
context blocked at timestamp 0 for the same duration is still asleep at
clock 100, the same 100 us after its block time. -/
theorem timestamp_u32_wrap :
    (∀ us : Nat, us % UINT32 < UINT32) ∧
    (∀ (c : EvalContext) (us : Nat), c.curr_exp = .sleepE us → c.app_cont = false →
      (stepCtx c).1.sleep_us = us % UINT32 ∧
      (stepCtx c).2 = .blockedO (.timedSleep (us % UINT32))) ∧
    (∀ e n cid now, (newCtx e n cid now).timestamp = now % UINT32) ∧
    (∀ now ts us, wakeReady now ts us = decide ((ts + us) % UINT32 ≤ now)) ∧
    ((UINT32 - 400) - (UINT32 - 500) = 100 ∧ (100 : Nat) - 0 = 100 ∧ (100 : Nat) < 1000) ∧
    (∀ cA : EvalContext, cA.timestamp = UINT32 - 500 → cA.sleep_us = 1000 →
      wakeSplit (UINT32 - 400) [(cA, .timedSleep 1000)] = ([], [cA])) ∧
    (∀ cB : EvalContext, cB.timestamp = 0 → cB.sleep_us = 1000 →
      wakeSplit 100 [(cB, .timedSleep 1000)] = ([(cB, .timedSleep 1000)], [])) := by
  refine ⟨fun us => Nat.mod_lt _ (by norm_num [UINT32]), ?_, fun e n cid now => rfl,
          fun now ts us => rfl, by norm_num [UINT32], ?_, ?_⟩
  · intro c us h1 h2
    simp [stepCtx, h1, h2]
  · intro cA h1 h2
    norm_num [wakeSplit, wakeReady, wakeTime, h1, h2, UINT32]
  · intro cB h1 h2
    norm_num [wakeSplit, wakeReady, wakeTime, h1, h2, UINT32]

/-- Witness for C10 at a concrete context: a requested sleep of
5000000000 us (more than `2^32 - 1`) is truncated modulo `2^32`. -/
theorem timestamp_u32_wrap_witness :
    (stepCtx ⟨[], .sleepE 5000000000, [], [], .nilV, false, false, [.doneF], 4, 0, 0, 1⟩).1.sleep_us
        = 5000000000 % UINT32 ∧
    (stepCtx ⟨[], .sleepE 5000000000, [], [], .nilV, false, false, [.doneF], 4, 0, 0, 1⟩).2
        = .blockedO (.timedSleep (5000000000 % UINT32)) :=
  timestamp_u32_wrap.2.1 _ 5000000000 rfl rfl

/-! ## C4: mailbox FIFO -/

/-- C4: per-context mailboxes are FIFO.  Delivering `m1, m2, m3` to a
context (here the head of the ready queue, mailbox initially empty) with
`lbm_send_message` appends them in send order, and three successive receive
operations executed by that context dequeue exactly `m1`, then `m2`, then
`m3`. -/
theorem mailbox_fifo (s : SchedState) (c : EvalContext) (rest : List EvalContext)
    (m1 m2 m3 : LVal) (hr : s.ready = c :: rest) (hmb : c.mailbox = []) :
    lbm_send_message s c.id m1 = (1, {s with ready := {c with mailbox := [m1]} :: rest}) ∧
    lbm_send_message {s with ready := {c with mailbox := [m1]} :: rest} c.id m2
      = (1, {s with ready := {c with mailbox := [m1, m2]} :: rest}) ∧
    lbm_send_message {s with ready := {c with mailbox := [m1, m2]} :: rest} c.id m3
      = (1, {s with ready := {c with mailbox := [m1, m2, m3]} :: rest}) ∧
    doReceive {c with mailbox := [m1, m2, m3]}
      = ({c with mailbox := [m2, m3], curr_exp := .recv, app_cont := true, r := m1},
         .continueO) ∧
    doReceive {c with mailbox := [m2, m3], curr_exp := .recv, app_cont := true, r := m1}
      = ({c with mailbox := [m3], curr_exp := .recv, app_cont := true, r := m2},
         .continueO) ∧
    doReceive {c with mailbox := [m3], curr_exp := .recv, app_cont := true, r := m2}
      = ({c with mailbox := [], curr_exp := .recv, app_cont := true, r := m3},
         .continueO) := by
  obtain ⟨p, ce, cv, mb, r0, dn, ac, K, ks, ts, su, i⟩ := c
  simp only [EvalContext.mailbox] at hmb
  subst hmb
  refine ⟨?_, ?_, ?_, ?_, ?_, ?_⟩ <;>
    simp [lbm_send_message, sendReady, doReceive, stepCtx, hr]

/-- Witness for C4 at a concrete scheduler state and concrete messages. -/
theorem mailbox_fifo_witness :
    lbm_send_message
        {lbm_eval_init 0 with ready := [newCtx .recv 4 1 0], evState := .RUNNING}
        (newCtx .recv 4 1 0).id (.I 10)
      = (1, {lbm_eval_init 0 with
              evState := .RUNNING
              ready := [{newCtx .recv 4 1 0 with mailbox := [.I 10]}]}) ∧
    doReceive {newCtx .recv 4 1 0 with mailbox := [.I 10, .I 20, .I 30]}
      = ({newCtx .recv 4 1 0 with
          mailbox := [.I 20, .I 30]
          curr_exp := .recv
          app_cont := true
          r := .I 10}, .continueO) :=
  have h := mailbox_fifo
    {lbm_eval_init 0 with ready := [newCtx .recv 4 1 0], evState := .RUNNING}
    (newCtx .recv 4 1 0) [] (.I 10) (.I 20) (.I 30) rfl rfl
  ⟨h.1, h.2.2.2.1⟩

/-! ## C8: send-message error handling and wakeup -/

theorem sendReady_eq_none {l : List EvalContext} {cid : Nat} {msg : LVal} :
    sendReady l cid msg = none ↔ cid ∉ l.map EvalContext.id := by
  induction l with
  | nil => simp [sendReady]
  | cons c cs ih =>
    by_cases h : c.id = cid
    · simp [sendReady, h]
    · simp [sendReady, h, ih, Option.map_eq_none', Ne.symm h]

theorem sendBlocked_eq_none {l : List (EvalContext × BlockReason)} {cid : Nat} {msg : LVal} :
    sendBlocked l cid msg = none ↔ cid ∉ l.map (fun p => p.1.id) := by
  induction l with
  | nil => simp [sendBlocked]
  | cons p ps ih =>
    rcases p with ⟨c, why⟩
    by_cases h : c.id = cid
    · cases why <;> simp [sendBlocked, h]
    · simp [sendBlocked, h, ih, Option.map_eq_none', Ne.symm h]

theorem sendReady_found {pre : List EvalContext} {c : EvalContext}
    (post : List EvalContext) {cid : Nat} (msg : LVal)
    (hc : c.id = cid) (hpre : cid ∉ pre.map EvalContext.id) :
    sendReady (pre ++ c :: post) cid msg =
      some (pre ++ {c with mailbox := c.mailbox ++ [msg]} :: post) := by
  induction pre with
  | nil => simp [sendReady, hc]
  | cons d ds ih =>
    simp only [List.map_cons, List.mem_cons, not_or] at hpre
    have hd : ¬ d.id = cid := fun h => hpre.1 h.symm
    simp [sendReady, hd, ih hpre.2]

theorem sendBlocked_found {pre : List (EvalContext × BlockReason)} {c : EvalContext}
    (post : List (EvalContext × BlockReason)) {cid : Nat} (msg : LVal) (why : BlockReason)
    (hc : c.id = cid) (hpre : cid ∉ pre.map (fun p => p.1.id)) :
    sendBlocked (pre ++ (c, why) :: post) cid msg =
      match why with
      | .mailboxB => some (pre ++ post, some {c with mailbox := c.mailbox ++ [msg]})
      | .timedSleep us =>
          some (pre ++ ({c with mailbox := c.mailbox ++ [msg]}, .timedSleep us) :: post,
                none) := by
  induction pre with
  | nil => cases why <;> simp [sendBlocked, hc]
  | cons d ds ih =>
    have hd : ¬ d.1.id = cid := by
      intro h
      exact hpre (by simp [h])
    have hds : cid ∉ ds.map (fun p => p.1.id) := by
      intro h
      exact hpre (by simp; right; simpa using h)
    cases why <;> simp [sendBlocked, hd, ih hds]

/-- C8: `lbm_send_message` error handling.  A send to an id that names no
ready or blocked context (in particular an unknown id, or an id resting in
the done queue) returns 0 and changes nothing — no message is delivered and
no context observes an error.  A send to a ready context returns 1 and
appends the message to its mailbox in place.  A send to a context blocked on
its mailbox returns 1, appends the message, and moves the target to the
ready queue; a send to a timed-sleeping context returns 1 and appends the
message while leaving it blocked. -/
theorem send_message_contract (s : SchedState) (cid : Nat) (msg : LVal) :
    (cid ∉ s.ready.map EvalContext.id → cid ∉ s.blocked.map (fun p => p.1.id) →
      lbm_send_message s cid msg = (0, s)) ∧
    (∀ pre c post, s.ready = pre ++ c :: post → c.id = cid →
      cid ∉ pre.map EvalContext.id →
      lbm_send_message s cid msg =
        (1, {s with ready := pre ++ {c with mailbox := c.mailbox ++ [msg]} :: post})) ∧
    (∀ pre c post, cid ∉ s.ready.map EvalContext.id →
      s.blocked = pre ++ (c, .mailboxB) :: post → c.id = cid →
      cid ∉ pre.map (fun p => p.1.id) →
      lbm_send_message s cid msg =
        (1, {s with blocked := pre ++ post,
                    ready := s.ready ++ [{c with mailbox := c.mailbox ++ [msg]}]})) ∧
    (∀ pre c post us, cid ∉ s.ready.map EvalContext.id →
      s.blocked = pre ++ (c, .timedSleep us) :: post → c.id = cid →
      cid ∉ pre.map (fun p => p.1.id) →
      lbm_send_message s cid msg =
        (1, {s with blocked :=
              pre ++ ({c with mailbox := c.mailbox ++ [msg]}, .timedSleep us) :: post})) := by
  refine ⟨?_, ?_, ?_, ?_⟩
  · intro h1 h2
    rw [lbm_send_message, sendReady_eq_none.mpr h1, sendBlocked_eq_none.mpr h2]
  · intro pre c post hready hc hpre
    rw [lbm_send_message, hready, sendReady_found post msg hc hpre]
  · intro pre c post h1 hblocked hc hpre
    rw [lbm_send_message, sendReady_eq_none.mpr h1, hblocked,
        sendBlocked_found post msg .mailboxB hc hpre]
  · intro pre c post us h1 hblocked hc hpre
    rw [lbm_send_message, sendReady_eq_none.mpr h1, hblocked,
        sendBlocked_found post msg (.timedSleep us) hc hpre]

/-- Witness for C8: sending to id 7 when the only existing context (a done
one) has id 1 fails and changes nothing; sending to a mailbox-blocked
context with id 1 wakes it. -/
theorem send_message_contract_witness :
    lbm_send_message {lbm_eval_init 0 with doneQ := [newCtx (.num 3) 4 1 0]} 7 (.I 5)
      = (0, {lbm_eval_init 0 with doneQ := [newCtx (.num 3) 4 1 0]}) ∧
    lbm_send_message {lbm_eval_init 0 with blocked := [(newCtx .recv 4 1 0, .mailboxB)]}
        1 (.I 5)
      = (1, {lbm_eval_init 0 with
              blocked := []
              ready := [{newCtx .recv 4 1 0 with mailbox := [.I 5]}]}) :=
  ⟨(send_message_contract {lbm_eval_init 0 with doneQ := [newCtx (.num 3) 4 1 0]} 7
      (.I 5)).1 (by simp [lbm_eval_init]) (by simp [lbm_eval_init]),
   by
    have h := (send_message_contract
        {lbm_eval_init 0 with blocked := [(newCtx .recv 4 1 0, .mailboxB)]} 1
        (.I 5)).2.2.1 [] (newCtx .recv 4 1 0) [] (by simp [lbm_eval_init]) rfl rfl
        (by simp)
    simpa using h⟩

/-! ## C5: launch contract and id freshness -/

theorem launchN_bounds : ∀ (ps : List (Expr × Nat)) (s : SchedState),
    s.nextCid ≤ (launchN s ps).2.nextCid ∧
    ∀ i ∈ (launchN s ps).1, i ≠ 0 → s.nextCid ≤ i ∧ i < (launchN s ps).2.nextCid := by
  intro ps
  induction ps with
  | nil => intro s; simp [launchN]
  | cons p ps ih =>
    intro s
    rcases p with ⟨e, n⟩
    by_cases h : n ≤ s.freeMem
    · have hstep : lbm_eval_program_ext s e n =
        (s.nextCid,
         {s with ready := s.ready ++ [newCtx e n s.nextCid s.time],
                 nextCid := s.nextCid + 1, freeMem := s.freeMem - n}) := by
        rw [lbm_eval_program_ext, if_pos h]
      obtain ⟨ih1, ih2⟩ := ih
        {s with ready := s.ready ++ [newCtx e n s.nextCid s.time],
                nextCid := s.nextCid + 1, freeMem := s.freeMem - n}
      have hproj : ({s with
            ready := s.ready ++ [newCtx e n s.nextCid s.time]
            nextCid := s.nextCid + 1
            freeMem := s.freeMem - n} : SchedState).nextCid = s.nextCid + 1 := rfl
      rw [hproj] at ih1
      constructor
      · simp only [launchN, hstep]
        omega
      · intro i hi hi0
        simp only [launchN, hstep, List.mem_cons] at hi ⊢
        rcases hi with rfl | hi
        · exact ⟨le_refl _, by omega⟩
        · have h2 := ih2 i hi hi0
          rw [hproj] at h2
          exact ⟨by omega, h2.2⟩
    · have hstep : lbm_eval_program_ext s e n = (0, s) := by
        rw [lbm_eval_program_ext, if_neg h]
      obtain ⟨ih1, ih2⟩ := ih s
      constructor
      · simp only [launchN, hstep]
        exact ih1
      · intro i hi hi0
        simp only [launchN, hstep, List.mem_cons] at hi ⊢
        rcases hi with rfl | hi
        · exact absurd rfl hi0
        · exact ih2 i hi hi0

/-- C5: the launch contract.  `lbm_eval_program` is `lbm_eval_program_ext`
with the default stack size.  When memory suffices, `lbm_eval_program_ext`
creates exactly one new context — appended to the ready queue, not done,
fresh continuation stack holding only the sentinel, the requested stack
capacity, id equal to the id counter (hence nonzero) — and returns that id.
When memory does not suffice it returns 0 and the scheduler state is
completely unchanged; 0 is returned only in that case.  Launching a batch of
programs yields pairwise distinct ids among the successful (nonzero)
ones. -/
theorem launch_contract (s : SchedState) (e : Expr) (n : Nat)
    (ps : List (Expr × Nat)) (h1 : 1 ≤ s.nextCid) :
    (lbm_eval_program s e = lbm_eval_program_ext s e DEFAULT_STACK_SIZE) ∧
    (n ≤ s.freeMem →
      lbm_eval_program_ext s e n =
        (s.nextCid,
         {s with ready := s.ready ++ [newCtx e n s.nextCid s.time],
                 nextCid := s.nextCid + 1, freeMem := s.freeMem - n})) ∧
    ((newCtx e n s.nextCid s.time).done = false ∧
     (newCtx e n s.nextCid s.time).K = [.doneF] ∧
     (newCtx e n s.nextCid s.time).ksize = n ∧
     (newCtx e n s.nextCid s.time).mailbox = [] ∧
     (newCtx e n s.nextCid s.time).id = s.nextCid) ∧
    (s.freeMem < n → lbm_eval_program_ext s e n = (0, s)) ∧
    ((lbm_eval_program_ext s e n).1 = 0 ↔ s.freeMem < n) ∧
    (launchN s ps).1.Pairwise (fun a b => a ≠ 0 → b ≠ 0 → a ≠ b) := by
  refine ⟨rfl, ?_, ⟨rfl, rfl, rfl, rfl, rfl⟩, ?_, ?_, ?_⟩
  · intro h
    rw [lbm_eval_program_ext, if_pos h]
  · intro h
    rw [lbm_eval_program_ext, if_neg (by omega)]
  · constructor
    · intro h
      by_contra hmem
      rw [lbm_eval_program_ext, if_pos (by omega)] at h
      simp at h
      omega
    · intro h
      rw [lbm_eval_program_ext, if_neg (by omega)]
  · clear h1
    induction ps generalizing s with
    | nil => simp [launchN]
    | cons p ps ih =>
      rcases p with ⟨e', n'⟩
      rcases hstep : lbm_eval_program_ext s e' n' with ⟨i0, s1⟩
      have hrest := launchN_bounds ps s1
      simp only [launchN, hstep, List.pairwise_cons]
      refine ⟨?_, ih s1⟩
      intro j hj hi0 hj0
      have hij : s1.nextCid ≤ j := (hrest.2 j hj hj0).1
      have : i0 < s1.nextCid := by
        by_cases h : n' ≤ s.freeMem
        · rw [lbm_eval_program_ext, if_pos h] at hstep
          have h1 : i0 = s.nextCid := by
            have := congrArg Prod.fst hstep
            simpa using this.symm
          have h2 : s1.nextCid = s.nextCid + 1 := by
            have := congrArg (fun p : Nat × SchedState => p.2.nextCid) hstep
            simpa using this.symm
          omega
        · rw [lbm_eval_program_ext, if_neg h] at hstep
          exact absurd (congrArg Prod.fst hstep).symm (by simpa using hi0)
      omega

/-- Witness for C5 at a concrete state: launching two programs from a fresh
scheduler yields ids 1 and 2 (distinct and nonzero). -/
theorem launch_contract_witness :
    (DEFAULT_STACK_SIZE ≤ (lbm_eval_init 600).freeMem →
      lbm_eval_program_ext (lbm_eval_init 600) (.num 1) DEFAULT_STACK_SIZE =
        ((lbm_eval_init 600).nextCid,
         {lbm_eval_init 600 with
            ready := (lbm_eval_init 600).ready ++
              [newCtx (.num 1) DEFAULT_STACK_SIZE (lbm_eval_init 600).nextCid
                (lbm_eval_init 600).time]
            nextCid := (lbm_eval_init 600).nextCid + 1
            freeMem := (lbm_eval_init 600).freeMem - DEFAULT_STACK_SIZE})) ∧
    (launchN (lbm_eval_init 600)
        [(.num 1, DEFAULT_STACK_SIZE), (.num 2, DEFAULT_STACK_SIZE)]).1.Pairwise
      (fun a b => a ≠ 0 → b ≠ 0 → a ≠ b) :=
  ⟨(launch_contract (lbm_eval_init 600) (.num 1) DEFAULT_STACK_SIZE []
      (by simp [lbm_eval_init])).2.1,
   (launch_contract (lbm_eval_init 600) (.num 1) DEFAULT_STACK_SIZE
      [(.num 1, DEFAULT_STACK_SIZE), (.num 2, DEFAULT_STACK_SIZE)]
      (by simp [lbm_eval_init])).2.2.2.2.2⟩

/-! ## C7: stack exhaustion is local to the offending context -/

/-- C7: continuation-stack exhaustion is local.  Pushing onto a full stack
fails explicitly rather than truncating (`pushK` succeeds exactly when there
is room, and then the old frames all survive below the new one); a step that
reports an error leaves the offending context's state untouched; and the
scheduler moves the offending context to the done queue with an error-tagged
result while every other context (the remaining ready queue and the done
queue) is unchanged and the evaluator state stays `RUNNING`.  The closed
conjunct runs the two-context scenario to completion: the overflowing
context ends Done with an `Err stackOverflow` result while its sibling
finishes normally with the value 7. -/
theorem stack_exhaustion_isolated (s : SchedState) (c : EvalContext)
    (rest : List EvalContext) (k : ErrKind)
    (h1 : s.evState = .RUNNING) (h2 : s.blocked = []) (h3 : s.ready = c :: rest)
    (h4 : (stepCtx c).2 = .errorO k) :
    (∀ (d : EvalContext) (f : Frame),
      (pushK d f = none ↔ d.ksize ≤ d.K.length) ∧
      (pushK d f = some (f :: d.K) ↔ d.K.length < d.ksize)) ∧
    (stepCtx c).1 = c ∧
    schedIter s = {s with ready := rest,
                          doneQ := s.doneQ ++ [{c with done := true, r := .Err k}],
                          doneLog := s.doneLog ++ [c.id]} ∧
    schedIterN 3 sIsolation =
      {lbm_eval_init 0 with
        evState := .RUNNING
        doneQ := [{ctxOverflow with done := true, r := .Err .stackOverflow},
                  {ctxSibling with r := .I 7, app_cont := true, done := true, K := []}]
        doneLog := [1, 2]} := by
  have hpair : stepCtx c = ((stepCtx c).1, .errorO k) := by rw [← h4]
  have heq : (stepCtx c).1 = c := stepCtx_error_eq hpair
  refine ⟨?_, heq, ?_, by rfl⟩
  · intro d f
    constructor
    · rw [pushK]
      constructor
      · intro h
        by_contra hlt
        rw [if_pos (by omega)] at h
        exact Option.noConfusion h
      · intro h
        rw [if_neg (by omega)]
    · rw [pushK]
      constructor
      · intro h
        by_contra hlt
        rw [if_neg (by omega)] at h
        exact Option.noConfusion h
      · intro h
        rw [if_pos h]
  · rw [heq] at hpair
    simp only [schedIter, h1, doOnePass, h2, h3, wakeSplit, List.append_nil, hpair]

/-- Witness for C7: the overflowing context's step errors with stack
overflow and the scheduler isolates it, leaving the sibling untouched. -/
theorem stack_exhaustion_isolated_witness :
    (stepCtx ctxOverflow).1 = ctxOverflow ∧
    schedIter sIsolation =
      {sIsolation with
        ready := [ctxSibling]
        doneQ := [{ctxOverflow with done := true, r := .Err .stackOverflow}]
        doneLog := [1]} :=
  have h := stack_exhaustion_isolated sIsolation ctxOverflow [ctxSibling]
    .stackOverflow rfl rfl rfl rfl
  ⟨h.2.1, by
    have h3 := h.2.2.1
    simpa [sIsolation, lbm_eval_init, ctxOverflow] using h3⟩

/-! ## C9: pause and single-step -/

theorem find?_id_skip {c : EvalContext} {l : List EvalContext} {cid : Nat}
    (h : ¬ c.id = cid) :
    List.find? (fun d => d.id == cid) (c :: l) = List.find? (fun d => d.id == cid) l := by
  simp [List.find?_cons, h]

theorem find?_id_last {l : List EvalContext} {c : EvalContext} {cid : Nat}
    (h : ¬ c.id = cid) :
    List.find? (fun d => d.id == cid) (l ++ [c]) = List.find? (fun d => d.id == cid) l := by
  rw [List.find?_append]
  simp [List.find?_cons, h]

/-- One scheduler pass changes the observable view (`r`, `curr_exp`, `K`) of
no context other than the stepped head of the ready queue (spawn can add a
brand-new context, whose id is the fresh `nextCid`). -/
theorem doOnePass_obs (s : SchedState) (c : EvalContext) (rest : List EvalContext)
    (h2 : s.blocked = []) (h3 : s.ready = c :: rest) (cid : Nat)
    (hc : ¬ cid = c.id) (hn : ¬ cid = s.nextCid) :
    obs (doOnePass s) cid = obs s cid := by
  rcases hsc : stepCtx c with ⟨c', o⟩
  have hid : c'.id = c.id := by
    have := stepCtx_id c
    rw [hsc] at this
    exact this
  have hcid' : ¬ c'.id = cid := by rw [hid]; exact fun h => hc h.symm
  have hcid : ¬ c.id = cid := fun h => hc h.symm
  have hn' : ¬ s.nextCid = cid := fun h => hn h.symm
  cases o with
  | continueO =>
    simp only [doOnePass, h2, h3, wakeSplit, List.append_nil, hsc]
    simp [obs, allCtxs, h2, h3, List.find?_append, List.cons_append,
          List.find?_cons, hcid, hcid']
  | blockedO why =>
    cases why <;>
      simp only [doOnePass, h2, h3, wakeSplit, List.append_nil, hsc] <;>
      simp [obs, allCtxs, h2, h3, List.find?_append, List.cons_append,
            List.find?_cons, hcid, hcid']
  | finishedO v =>
    simp only [doOnePass, h2, h3, wakeSplit, List.append_nil, hsc]
    simp [obs, allCtxs, h2, h3, List.find?_append, List.cons_append,
          List.find?_cons, hcid, hcid']
  | errorO k =>
    simp only [doOnePass, h2, h3, wakeSplit, List.append_nil, hsc]
    simp [obs, allCtxs, h2, h3, List.find?_append, List.cons_append,
          List.find?_cons, hcid, hcid']
  | spawnedO body =>
    by_cases hm : DEFAULT_STACK_SIZE ≤ s.freeMem <;>
      simp only [doOnePass, h2, h3, wakeSplit, List.append_nil, hsc, hm,
                 ite_true, ite_false, if_pos, if_neg] <;>
      simp [obs, allCtxs, h2, h3, List.find?_append, List.cons_append,
            List.find?_cons, hcid, hcid', newCtx, hn']

/-- C9: while the evaluator is `PAUSED` a scheduler iteration changes
nothing at all (hence no context's `r`, `curr_exp` or `K` changes);
`lbm_step_eval` moves the machine to the transient `STEP` state, whose one
iteration performs exactly one scheduler pass — stepping only the head
ready context, leaving every other context's observable state untouched —
and auto-reverts to `PAUSED`; and among the control calls only
`lbm_continue_eval` resumes free running. -/
theorem pause_step_contract (s : SchedState) (hp : s.evState = .PAUSED) :
    schedIter s = s ∧
    (lbm_step_eval s).evState = .STEP ∧
    schedIter (lbm_step_eval s) = {doOnePass (lbm_step_eval s) with evState := .PAUSED} ∧
    (schedIter (lbm_step_eval s)).evState = .PAUSED ∧
    (lbm_continue_eval s).evState = .RUNNING ∧
    (lbm_pause_eval s).evState ≠ .RUNNING ∧
    (lbm_step_eval s).evState ≠ .RUNNING ∧
    (lbm_kill_eval s).evState ≠ .RUNNING ∧
    (∀ c rest cid, s.blocked = [] → s.ready = c :: rest → ¬ cid = c.id →
      ¬ cid = s.nextCid →
      obs (schedIter (lbm_step_eval s)) cid = obs s cid) := by
  have hstep : lbm_step_eval s = {s with evState := .STEP} := by
    rw [lbm_step_eval, if_pos hp]
  have hiter : schedIter (lbm_step_eval s)
      = {doOnePass (lbm_step_eval s) with evState := .PAUSED} := by
    rw [hstep]
    rfl
  refine ⟨?_, ?_, hiter, ?_, ?_, ?_, ?_, ?_, ?_⟩
  · rw [schedIter, hp]
  · rw [hstep]
  · rw [hiter]
  · rw [lbm_continue_eval, if_pos hp]
  · rw [lbm_pause_eval]
    split <;> simp [hp]
  · rw [hstep]
    simp
  · rw [lbm_kill_eval]
    simp
  · intro c rest cid hb hr hc hn
    rw [hiter]
    have h1 : obs {doOnePass (lbm_step_eval s) with evState := .PAUSED} cid
        = obs (doOnePass (lbm_step_eval s)) cid := rfl
    have h2 : obs (lbm_step_eval s) cid = obs s cid := by rw [hstep]; rfl
    rw [h1, ← h2]
    exact doOnePass_obs (lbm_step_eval s) c rest (by rw [hstep]; exact hb)
      (by rw [hstep]; exact hr) cid hc (by rw [hstep]; exact hn)

/-- Witness for C9 at a concrete paused one-context state. -/
theorem pause_step_contract_witness :
    schedIter {lbm_eval_init 0 with
                ready := [newCtx (.num 7) 4 1 0]
                evState := .PAUSED}
      = {lbm_eval_init 0 with ready := [newCtx (.num 7) 4 1 0], evState := .PAUSED} ∧
    (lbm_step_eval {lbm_eval_init 0 with
                     ready := [newCtx (.num 7) 4 1 0]
                     evState := .PAUSED}).evState = .STEP :=
  have h := pause_step_contract
    {lbm_eval_init 0 with ready := [newCtx (.num 7) 4 1 0], evState := .PAUSED} rfl
  ⟨h.1, h.2.1⟩

/-! ## C2: queue-membership invariant -/

theorem sendReady_some {l l' : List EvalContext} {cid : Nat} {msg : LVal}
    (h : sendReady l cid msg = some l') :
    ∃ pre c0 post, l = pre ++ c0 :: post ∧
      l' = pre ++ {c0 with mailbox := c0.mailbox ++ [msg]} :: post := by
  induction l generalizing l' with
  | nil => simp [sendReady] at h
  | cons c cs ih =>
    rw [sendReady] at h
    by_cases hc : c.id = cid
    · rw [if_pos hc] at h
      exact ⟨[], c, cs, rfl, (Option.some.inj h).symm⟩
    · rw [if_neg hc] at h
      simp only [Option.map_eq_some'] at h
      obtain ⟨l1, hl1, rfl⟩ := h
      obtain ⟨pre, c0, post, rfl, rfl⟩ := ih hl1
      exact ⟨c :: pre, c0, post, rfl, rfl⟩

theorem sendBlocked_some_none {l b' : List (EvalContext × BlockReason)} {cid : Nat}
    {msg : LVal} (h : sendBlocked l cid msg = some (b', none)) :
    ∃ pre c0 us post, l = pre ++ (c0, .timedSleep us) :: post ∧
      b' = pre ++ ({c0 with mailbox := c0.mailbox ++ [msg]}, .timedSleep us) :: post := by
  induction l generalizing b' with
  | nil => simp [sendBlocked] at h
  | cons p ps ih =>
    rcases p with ⟨c, why⟩
    cases why with
    | mailboxB =>
      simp only [sendBlocked] at h
      by_cases hc : c.id = cid
      · rw [if_pos hc] at h
        simp at h
      · rw [if_neg hc] at h
        simp only [Option.map_eq_some'] at h
        obtain ⟨⟨l1, w1⟩, hl1, hq⟩ := h
        simp only [Prod.mk.injEq] at hq
        obtain ⟨rfl, hw⟩ := hq
        subst hw
        obtain ⟨pre, c0, us, post, rfl, rfl⟩ := ih hl1
        exact ⟨(c, .mailboxB) :: pre, c0, us, post, rfl, rfl⟩
    | timedSleep us1 =>
      simp only [sendBlocked] at h
      by_cases hc : c.id = cid
      · rw [if_pos hc] at h
        simp only [Option.some.injEq, Prod.mk.injEq] at h
        exact ⟨[], c, us1, ps, rfl, h.1.symm⟩
      · rw [if_neg hc] at h
        simp only [Option.map_eq_some'] at h
        obtain ⟨⟨l1, w1⟩, hl1, hq⟩ := h
        simp only [Prod.mk.injEq] at hq
        obtain ⟨rfl, hw⟩ := hq
        subst hw
        obtain ⟨pre, c0, us, post, rfl, rfl⟩ := ih hl1
        exact ⟨(c, .timedSleep us1) :: pre, c0, us, post, rfl, rfl⟩

theorem sendBlocked_some_woken {l b' : List (EvalContext × BlockReason)}
    {w : EvalContext} {cid : Nat} {msg : LVal}
    (h : sendBlocked l cid msg = some (b', some w)) :
    ∃ pre c0 post, l = pre ++ (c0, .mailboxB) :: post ∧ b' = pre ++ post ∧
      w = {c0 with mailbox := c0.mailbox ++ [msg]} := by
  induction l generalizing b' with
  | nil => simp [sendBlocked] at h
  | cons p ps ih =>
    rcases p with ⟨c, why⟩
    cases why with
    | mailboxB =>
      simp only [sendBlocked] at h
      by_cases hc : c.id = cid
      · rw [if_pos hc] at h
        simp only [Option.some.injEq, Prod.mk.injEq] at h
        exact ⟨[], c, ps, rfl, h.1.symm, h.2.symm⟩
      · rw [if_neg hc] at h
        simp only [Option.map_eq_some'] at h
        obtain ⟨⟨l1, w1⟩, hl1, hq⟩ := h
        simp only [Prod.mk.injEq] at hq
        obtain ⟨rfl, hw⟩ := hq
        subst hw
        obtain ⟨pre, c0, post, rfl, rfl, rfl⟩ := ih hl1
        exact ⟨(c, .mailboxB) :: pre, c0, post, rfl, rfl, rfl⟩
    | timedSleep us1 =>
      simp only [sendBlocked] at h
      by_cases hc : c.id = cid
      · rw [if_pos hc] at h
        simp at h
      · rw [if_neg hc] at h
        simp only [Option.map_eq_some'] at h
        obtain ⟨⟨l1, w1⟩, hl1, hq⟩ := h
        simp only [Prod.mk.injEq] at hq
        obtain ⟨rfl, hw⟩ := hq
        subst hw
        obtain ⟨pre, c0, post, rfl, rfl, rfl⟩ := ih hl1
        exact ⟨(c, .timedSleep us1) :: pre, c0, post, rfl, rfl, rfl⟩

theorem removeQ_some {l : List EvalContext} {cid : Nat} {c0 : EvalContext}
    {l' : List EvalContext} (h : removeQ l cid = some (c0, l')) :
    ∃ pre post, l = pre ++ c0 :: post ∧ l' = pre ++ post := by
  induction l generalizing l' with
  | nil => simp [removeQ] at h
  | cons c cs ih =>
    rw [removeQ] at h
    by_cases hc : c.id = cid
    · rw [if_pos hc] at h
      simp only [Option.some.injEq, Prod.mk.injEq] at h
      obtain ⟨rfl, rfl⟩ := h
      exact ⟨[], cs, rfl, rfl⟩
    · rw [if_neg hc] at h
      simp only [Option.map_eq_some'] at h
      obtain ⟨⟨d, l1⟩, hl1, hq⟩ := h
      simp only [Prod.mk.injEq] at hq
      obtain ⟨rfl, rfl⟩ := hq
      obtain ⟨pre, post, rfl, rfl⟩ := ih hl1
      exact ⟨c :: pre, post, rfl, rfl⟩

theorem wakeSplit_perm (now : Nat) (l : List (EvalContext × BlockReason)) :
    List.Perm
      ((wakeSplit now l).1.map (fun p => p.1.id) ++ (wakeSplit now l).2.map EvalContext.id)
      (l.map (fun p => p.1.id)) ∧
    (∀ p ∈ (wakeSplit now l).1, p ∈ l) ∧
    (∀ c ∈ (wakeSplit now l).2, ∃ us, (c, BlockReason.timedSleep us) ∈ l) := by
  induction l with
  | nil => simp [wakeSplit]
  | cons p ps ih =>
    rcases p with ⟨c, why⟩
    obtain ⟨ih1, ih2, ih3⟩ := ih
    cases why with
    | mailboxB =>
      refine ⟨?_, ?_, ?_⟩
      · simpa [wakeSplit] using ih1.cons c.id
      · intro q hq
        simp only [wakeSplit, List.mem_cons] at hq
        rcases hq with hq | hq
        · simp [hq]
        · exact List.mem_cons_of_mem _ (ih2 q hq)
      · intro d hd
        simp only [wakeSplit] at hd
        obtain ⟨us, hus⟩ := ih3 d hd
        exact ⟨us, List.mem_cons_of_mem _ hus⟩
    | timedSleep us =>
      by_cases hw : wakeReady now c.timestamp c.sleep_us
      · refine ⟨?_, ?_, ?_⟩
        · have h1 : wakeSplit now ((c, BlockReason.timedSleep us) :: ps)
              = ((wakeSplit now ps).1, c :: (wakeSplit now ps).2) := by
            simp [wakeSplit, hw]
          rw [h1]
          exact List.perm_middle.trans (ih1.cons c.id)
        · intro q hq
          simp [wakeSplit, hw] at hq
          exact List.mem_cons_of_mem _ (ih2 q hq)
        · intro d hd
          simp [wakeSplit, hw] at hd
          rcases hd with hd | hd
          · exact ⟨us, by simp [hd]⟩
          · obtain ⟨us', hus⟩ := ih3 d hd
            exact ⟨us', List.mem_cons_of_mem _ hus⟩
      · refine ⟨?_, ?_, ?_⟩
        · have h1 : wakeSplit now ((c, BlockReason.timedSleep us) :: ps)
              = ((c, BlockReason.timedSleep us) :: (wakeSplit now ps).1,
                 (wakeSplit now ps).2) := by
            simp [wakeSplit, hw]
          rw [h1]
          simpa using ih1.cons c.id
        · intro q hq
          simp [wakeSplit, hw] at hq
          rcases hq with hq | hq
          · simp [hq]
          · exact List.mem_cons_of_mem _ (ih2 q hq)
        · intro d hd
          simp [wakeSplit, hw] at hd
          obtain ⟨us', hus⟩ := ih3 d hd
          exact ⟨us', List.mem_cons_of_mem _ hus⟩

theorem perm_can1 {α : Type} (x : α) (A Z D : List α) :
    List.Perm (((A ++ [x]) ++ Z) ++ D) (x :: ((A ++ Z) ++ D)) := by
  have h1 : List.Perm (A ++ [x]) (x :: A) := List.perm_append_singleton x A
  exact (h1.append_right Z).append_right D

theorem perm_can6 {α : Type} (x : α) (A Z : List α) :
    List.Perm (A ++ (Z ++ [x])) (x :: (A ++ Z)) := by
  have h1 : List.Perm (Z ++ [x]) (x :: Z) := List.perm_append_singleton x Z
  have h2 := h1.append_left A
  exact h2.trans List.perm_middle

theorem perm_can4 {α : Type} (x : α) (A P Q : List α) :
    List.Perm (A ++ (P ++ x :: Q)) (x :: (A ++ (P ++ Q))) := by
  have h1 : List.Perm (P ++ x :: Q) (x :: (P ++ Q)) := List.perm_middle
  exact (h1.append_left A).trans List.perm_middle

theorem perm_can2 {α : Type} (x : α) (A P Q D : List α) :
    List.Perm ((A ++ (P ++ x :: Q)) ++ D) (x :: ((A ++ (P ++ Q)) ++ D)) :=
  (perm_can4 x A P Q).append_right D

/-- Invariant preservation: context launch. -/
theorem inv_launch (s : SchedState) (e : Expr) (n : Nat) (h : ContextInvariant s) :
    ContextInvariant (lbm_eval_program_ext s e n).2 := by
  obtain ⟨hnd, hrf, hbf, hdf, hb, hn1⟩ := h
  rw [lbm_eval_program_ext]
  by_cases hm : n ≤ s.freeMem
  · rw [if_pos hm]
    have hq : qids {s with
          ready := s.ready ++ [newCtx e n s.nextCid s.time]
          nextCid := s.nextCid + 1
          freeMem := s.freeMem - n}
        = ((s.ready.map EvalContext.id ++ [s.nextCid]) ++
            s.blocked.map (fun p => p.1.id)) ++ s.doneQ.map EvalContext.id := by
      simp [qids, newCtx]
    have hperm : List.Perm (qids {s with
          ready := s.ready ++ [newCtx e n s.nextCid s.time]
          nextCid := s.nextCid + 1
          freeMem := s.freeMem - n}) (s.nextCid :: qids s) := by
      rw [hq]
      exact perm_can1 s.nextCid _ _ _
    have hfresh : s.nextCid ∉ qids s := fun hmem => by
      have := (hb _ hmem).2
      omega
    refine ⟨?_, ?_, ?_, ?_, ?_, ?_⟩
    · exact (hperm.symm.nodup (List.nodup_cons.mpr ⟨hfresh, hnd⟩))
    · intro c hc
      simp only [List.mem_append, List.mem_singleton] at hc
      rcases hc with hc | rfl
      · exact hrf c hc
      · rfl
    · exact hbf
    · exact hdf
    · intro i hi
      have hi2 := hperm.mem_iff.mp hi
      simp only [List.mem_cons] at hi2
      show 0 < i ∧ i < s.nextCid + 1
      rcases hi2 with rfl | hi2
      · omega
      · have := hb i hi2
        omega
    · show 1 ≤ s.nextCid + 1
      omega
  · rw [if_neg hm]
    exact ⟨hnd, hrf, hbf, hdf, hb, hn1⟩

/-- Invariant preservation: message send. -/
theorem inv_send (s : SchedState) (cid : Nat) (msg : LVal) (h : ContextInvariant s) :
    ContextInvariant (lbm_send_message s cid msg).2 := by
  obtain ⟨hnd, hrf, hbf, hdf, hb, hn1⟩ := h
  rw [lbm_send_message]
  rcases hr : sendReady s.ready cid msg with _ | r'
  · rcases hbk : sendBlocked s.blocked cid msg with _ | ⟨b', w⟩
    · exact ⟨hnd, hrf, hbf, hdf, hb, hn1⟩
    · rcases w with _ | w
      · -- timed sleeper: mailbox appended in place
        obtain ⟨pre, c0, us, post, hbl, rfl⟩ := sendBlocked_some_none hbk
        have hq : qids {s with blocked :=
              pre ++ ({c0 with mailbox := c0.mailbox ++ [msg]}, .timedSleep us) :: post}
            = qids s := by
          simp [qids, hbl]
        refine ⟨hq ▸ hnd, hrf, ?_, hdf, fun i hi => hb i (hq ▸ hi), hn1⟩
        intro p hp
        simp only [List.mem_append, List.mem_cons] at hp
        rcases hp with hp | hp | hp
        · exact hbf p (by simp [hbl, hp])
        · rw [hp]
          exact hbf (c0, .timedSleep us) (by simp [hbl])
        · exact hbf p (by simp [hbl, hp])
      · -- mailbox-blocked target woken to ready
        obtain ⟨pre, c0, post, hbl, rfl, rfl⟩ := sendBlocked_some_woken hbk
        have hq1 : qids {s with
              blocked := pre ++ post
              ready := s.ready ++ [{c0 with mailbox := c0.mailbox ++ [msg]}]}
            = ((s.ready.map EvalContext.id ++ [c0.id]) ++
                (pre.map (fun p => p.1.id) ++ post.map (fun p => p.1.id))) ++
              s.doneQ.map EvalContext.id := by
          simp [qids]
        have hq2 : qids s
            = (s.ready.map EvalContext.id ++
                (pre.map (fun p => p.1.id) ++ c0.id :: post.map (fun p => p.1.id))) ++
              s.doneQ.map EvalContext.id := by
          simp [qids, hbl]
        have hperm : List.Perm (qids {s with
              blocked := pre ++ post
              ready := s.ready ++ [{c0 with mailbox := c0.mailbox ++ [msg]}]})
            (qids s) := by
          rw [hq1, hq2]
          exact (perm_can1 c0.id _ _ _).trans (perm_can2 c0.id _ _ _ _).symm
        refine ⟨hperm.symm.nodup hnd, ?_, ?_, hdf, ?_, hn1⟩
        · intro c hc
          simp only [List.mem_append, List.mem_singleton] at hc
          rcases hc with hc | rfl
          · exact hrf c hc
          · exact hbf (c0, .mailboxB) (by simp [hbl])
        · intro p hp
          simp only [List.mem_append] at hp
          rcases hp with hp | hp
          · exact hbf p (by simp [hbl, hp])
          · exact hbf p (by simp [hbl, hp])
        · intro i hi
          exact hb i (hperm.mem_iff.mp hi)
  · -- ready target: mailbox appended in place
    obtain ⟨pre, c0, post, hrd, rfl⟩ := sendReady_some hr
    have hq : qids {s with ready := pre ++ {c0 with mailbox := c0.mailbox ++ [msg]} :: post}
        = qids s := by
      simp [qids, hrd]
    refine ⟨hq ▸ hnd, ?_, hbf, hdf, fun i hi => hb i (hq ▸ hi), hn1⟩
    intro c hc
    simp only [List.mem_append, List.mem_cons] at hc
    rcases hc with hc | hc | hc
    · exact hrf c (by simp [hrd, hc])
    · rw [hc]
      exact hrf c0 (by simp [hrd])
    · exact hrf c (by simp [hrd, hc])

/-- Invariant preservation: removing a done context. -/
theorem inv_remove (s : SchedState) (cid : Nat) (h : ContextInvariant s) :
    ContextInvariant (lbm_remove_done_ctx s cid).2 := by
  obtain ⟨hnd, hrf, hbf, hdf, hb, hn1⟩ := h
  rw [lbm_remove_done_ctx]
  rcases hr : removeQ s.doneQ cid with _ | ⟨c0, d'⟩
  · exact ⟨hnd, hrf, hbf, hdf, hb, hn1⟩
  · obtain ⟨pre, post, hdq, rfl⟩ := removeQ_some hr
    have hq1 : qids {s with doneQ := pre ++ post, freeMem := s.freeMem + c0.ksize}
        = (s.ready.map EvalContext.id ++ s.blocked.map (fun p => p.1.id)) ++
          (pre.map EvalContext.id ++ post.map EvalContext.id) := by
      simp [qids]
    have hq2 : qids s
        = (s.ready.map EvalContext.id ++ s.blocked.map (fun p => p.1.id)) ++
          (pre.map EvalContext.id ++ c0.id :: post.map EvalContext.id) := by
      simp [qids, hdq]
    have hperm : List.Perm (qids s)
        (c0.id :: qids {s with doneQ := pre ++ post, freeMem := s.freeMem + c0.ksize}) := by
      rw [hq1, hq2]
      exact perm_can4 c0.id _ _ _
    have hnd2 := hperm.nodup hnd
    refine ⟨(List.nodup_cons.mp hnd2).2, hrf, hbf, ?_, ?_, hn1⟩
    · intro c hc
      simp only [List.mem_append] at hc
      rcases hc with hc | hc
      · exact hdf c (by simp [hdq, hc])
      · exact hdf c (by simp [hdq, hc])
    · intro i hi
      exact hb i (hperm.mem_iff.mpr (List.mem_cons_of_mem _ hi))

/-- Invariant preservation: one scheduler pass. -/
theorem inv_doOnePass (s : SchedState) (h : ContextInvariant s) :
    ContextInvariant (doOnePass s) := by
  obtain ⟨hnd, hrf, hbf, hdf, hb, hn1⟩ := h
  obtain ⟨hwperm, hwmem, hwwoken⟩ := wakeSplit_perm s.time s.blocked
  have hmid : List.Perm
      (((s.ready.map EvalContext.id ++
          (wakeSplit s.time s.blocked).2.map EvalContext.id) ++
         (wakeSplit s.time s.blocked).1.map (fun p => p.1.id)) ++
        s.doneQ.map EvalContext.id)
      (qids s) := by
    have h1 : List.Perm
        ((wakeSplit s.time s.blocked).2.map EvalContext.id ++
          (wakeSplit s.time s.blocked).1.map (fun p => p.1.id))
        (s.blocked.map (fun p => p.1.id)) :=
      List.perm_append_comm.trans hwperm
    have h2 := (h1.append_left (s.ready.map EvalContext.id)).append_right
      (s.doneQ.map EvalContext.id)
    rw [qids, List.append_assoc (s.ready.map EvalContext.id)]
    exact h2
  have hmidrf : ∀ c ∈ s.ready ++ (wakeSplit s.time s.blocked).2, c.done = false := by
    intro c hc
    rcases List.mem_append.mp hc with hc | hc
    · exact hrf c hc
    · obtain ⟨us, hus⟩ := hwwoken c hc
      exact hbf (c, .timedSleep us) hus
  have hmidbf : ∀ p ∈ (wakeSplit s.time s.blocked).1, p.1.done = false :=
    fun p hp => hbf p (hwmem p hp)
  rcases hready : s.ready ++ (wakeSplit s.time s.blocked).2 with _ | ⟨c, rest⟩
  · -- no ready work: only the blocked queue is re-filtered
    have hres : doOnePass s
        = {s with ready := [], blocked := (wakeSplit s.time s.blocked).1} := by
      simp only [doOnePass, hready]
    rw [hres]
    have hq : qids {s with ready := [], blocked := (wakeSplit s.time s.blocked).1}
        = ([] ++ (wakeSplit s.time s.blocked).1.map (fun p => p.1.id)) ++
          s.doneQ.map EvalContext.id := by
      simp [qids]
    have hr0 : s.ready.map EvalContext.id = [] := by
      rw [(List.append_eq_nil.mp hready).1]
      rfl
    have hw0 : (wakeSplit s.time s.blocked).2.map EvalContext.id = [] := by
      rw [(List.append_eq_nil.mp hready).2]
      rfl
    have hperm2 : List.Perm (qids {s with
          ready := []
          blocked := (wakeSplit s.time s.blocked).1}) (qids s) := by
      rw [hq]
      have := hmid
      rw [hr0, hw0] at this
      simpa using this
    exact ⟨hperm2.symm.nodup hnd, by simp, hmidbf, hdf,
           fun i hi => hb i (hperm2.subset hi), hn1⟩
  · -- a context is scheduled
    have hmap : s.ready.map EvalContext.id ++
        (wakeSplit s.time s.blocked).2.map EvalContext.id
        = c.id :: rest.map EvalContext.id := by
      rw [← List.map_append, hready, List.map_cons]
    have hmid2 : List.Perm
        (c.id :: ((rest.map EvalContext.id ++
            (wakeSplit s.time s.blocked).1.map (fun p => p.1.id)) ++
          s.doneQ.map EvalContext.id))
        (qids s) := by
      have := hmid
      rw [hmap] at this
      simpa using this
    have hnd2 : (c.id :: ((rest.map EvalContext.id ++
        (wakeSplit s.time s.blocked).1.map (fun p => p.1.id)) ++
        s.doneQ.map EvalContext.id)).Nodup := hmid2.symm.nodup hnd
    have hbnd2 : ∀ i ∈ c.id :: ((rest.map EvalContext.id ++
        (wakeSplit s.time s.blocked).1.map (fun p => p.1.id)) ++
        s.doneQ.map EvalContext.id), 0 < i ∧ i < s.nextCid :=
      fun i hi => hb i (hmid2.subset hi)
    have hcd : c.done = false := hmidrf c (by rw [hready]; exact List.mem_cons_self _ _)
    have hrestf : ∀ d ∈ rest, d.done = false :=
      fun d hd => hmidrf d (by rw [hready]; exact List.mem_cons_of_mem _ hd)
    rcases hsc : stepCtx c with ⟨c', o⟩
    have hid' : c'.id = c.id := by
      have := stepCtx_id c
      rw [hsc] at this
      exact this
    cases o with
    | continueO =>
      have hdc : c'.done = false := by
        rw [← hcd]
        rcases stepCtx_done c with hh | ⟨w, hw, _⟩
        · rw [hsc] at hh; exact hh
        · rw [hsc] at hw; exact absurd hw (by simp)
      have hres : doOnePass s = {s with
            ready := rest ++ [c']
            blocked := (wakeSplit s.time s.blocked).1} := by
        simp only [doOnePass, hready, hsc]
      rw [hres]
      have hq : qids {s with
            ready := rest ++ [c']
            blocked := (wakeSplit s.time s.blocked).1}
          = ((rest.map EvalContext.id ++ [c.id]) ++
              (wakeSplit s.time s.blocked).1.map (fun p => p.1.id)) ++
            s.doneQ.map EvalContext.id := by
        simp [qids, hid']
      have hperm2 : List.Perm (qids {s with
            ready := rest ++ [c']
            blocked := (wakeSplit s.time s.blocked).1})
          (c.id :: ((rest.map EvalContext.id ++
              (wakeSplit s.time s.blocked).1.map (fun p => p.1.id)) ++
            s.doneQ.map EvalContext.id)) := by
        rw [hq]
        exact perm_can1 c.id _ _ _
      refine ⟨hperm2.symm.nodup hnd2, ?_, hmidbf, hdf,
              fun i hi => hbnd2 i (hperm2.subset hi), hn1⟩
      intro d hd
      rcases List.mem_append.mp hd with hd | hd
      · exact hrestf d hd
      · rw [List.mem_singleton.mp hd]
        exact hdc
    | blockedO why =>
      have hdc : c'.done = false := by
        rw [← hcd]
        rcases stepCtx_done c with hh | ⟨w, hw, _⟩
        · rw [hsc] at hh; exact hh
        · rw [hsc] at hw; exact absurd hw (by simp)
      cases why with
      | mailboxB =>
        have hres : doOnePass s = {s with
              ready := rest
              blocked := (wakeSplit s.time s.blocked).1 ++ [(c', .mailboxB)]} := by
          simp only [doOnePass, hready, hsc]
        rw [hres]
        have hq : qids {s with
              ready := rest
              blocked := (wakeSplit s.time s.blocked).1 ++ [(c', .mailboxB)]}
            = (rest.map EvalContext.id ++
                ((wakeSplit s.time s.blocked).1.map (fun p => p.1.id) ++ [c.id])) ++
              s.doneQ.map EvalContext.id := by
          simp [qids, hid']
        have hperm2 : List.Perm (qids {s with
              ready := rest
              blocked := (wakeSplit s.time s.blocked).1 ++ [(c', .mailboxB)]})
            (c.id :: ((rest.map EvalContext.id ++
                (wakeSplit s.time s.blocked).1.map (fun p => p.1.id)) ++
              s.doneQ.map EvalContext.id)) := by
          rw [hq]
          exact (perm_can6 c.id (rest.map EvalContext.id)
            ((wakeSplit s.time s.blocked).1.map (fun p => p.1.id))).append_right
            (s.doneQ.map EvalContext.id)
        refine ⟨hperm2.symm.nodup hnd2, hrestf, ?_, hdf,
                fun i hi => hbnd2 i (hperm2.subset hi), hn1⟩
        intro p hp
        rcases List.mem_append.mp hp with hp | hp
        · exact hmidbf p hp
        · rw [List.mem_singleton.mp hp]
          exact hdc
      | timedSleep us =>
        have hres : doOnePass s = {s with
              ready := rest
              blocked := (wakeSplit s.time s.blocked).1 ++
                [({c' with timestamp := s.time % UINT32, sleep_us := us % UINT32},
                  .timedSleep us)]} := by
          simp only [doOnePass, hready, hsc]
        rw [hres]
        have hq : qids {s with
              ready := rest
              blocked := (wakeSplit s.time s.blocked).1 ++
                [({c' with timestamp := s.time % UINT32, sleep_us := us % UINT32},
                  .timedSleep us)]}
            = (rest.map EvalContext.id ++
                ((wakeSplit s.time s.blocked).1.map (fun p => p.1.id) ++ [c.id])) ++
              s.doneQ.map EvalContext.id := by
          simp [qids, hid']
        have hperm2 : List.Perm (qids {s with
              ready := rest
              blocked := (wakeSplit s.time s.blocked).1 ++
                [({c' with timestamp := s.time % UINT32, sleep_us := us % UINT32},
                  .timedSleep us)]})
            (c.id :: ((rest.map EvalContext.id ++
                (wakeSplit s.time s.blocked).1.map (fun p => p.1.id)) ++
              s.doneQ.map EvalContext.id)) := by
          rw [hq]
          exact (perm_can6 c.id (rest.map EvalContext.id)
            ((wakeSplit s.time s.blocked).1.map (fun p => p.1.id))).append_right
            (s.doneQ.map EvalContext.id)
        refine ⟨hperm2.symm.nodup hnd2, hrestf, ?_, hdf,
                fun i hi => hbnd2 i (hperm2.subset hi), hn1⟩
        intro p hp
        rcases List.mem_append.mp hp with hp | hp
        · exact hmidbf p hp
        · rw [List.mem_singleton.mp hp]
          exact hdc
    | finishedO v =>
      have hres : doOnePass s = {s with
            ready := rest
            blocked := (wakeSplit s.time s.blocked).1
            doneQ := s.doneQ ++ [{c' with done := true, r := v}]
            doneLog := s.doneLog ++ [c'.id]} := by
        simp only [doOnePass, hready, hsc]
      rw [hres]
      have hq : qids {s with
            ready := rest
            blocked := (wakeSplit s.time s.blocked).1
            doneQ := s.doneQ ++ [{c' with done := true, r := v}]
            doneLog := s.doneLog ++ [c'.id]}
          = (rest.map EvalContext.id ++
              (wakeSplit s.time s.blocked).1.map (fun p => p.1.id)) ++
            (s.doneQ.map EvalContext.id ++ [c.id]) := by
        simp [qids, hid']
      have hperm2 : List.Perm (qids {s with
            ready := rest
            blocked := (wakeSplit s.time s.blocked).1
            doneQ := s.doneQ ++ [{c' with done := true, r := v}]
            doneLog := s.doneLog ++ [c'.id]})
          (c.id :: ((rest.map EvalContext.id ++
                (wakeSplit s.time s.blocked).1.map (fun p => p.1.id)) ++
              s.doneQ.map EvalContext.id)) := by
        rw [hq]
        exact perm_can6 c.id (rest.map EvalContext.id ++
          (wakeSplit s.time s.blocked).1.map (fun p => p.1.id))
          (s.doneQ.map EvalContext.id)
      refine ⟨hperm2.symm.nodup hnd2, hrestf, hmidbf, ?_,
              fun i hi => hbnd2 i (hperm2.subset hi), hn1⟩
      intro d hd
      rcases List.mem_append.mp hd with hd | hd
      · exact hdf d hd
      · rw [List.mem_singleton.mp hd]
    | errorO k =>
      have hres : doOnePass s = {s with
            ready := rest
            blocked := (wakeSplit s.time s.blocked).1
            doneQ := s.doneQ ++ [{c' with done := true, r := .Err k}]
            doneLog := s.doneLog ++ [c'.id]} := by
        simp only [doOnePass, hready, hsc]
      rw [hres]
      have hq : qids {s with
            ready := rest
            blocked := (wakeSplit s.time s.blocked).1
            doneQ := s.doneQ ++ [{c' with done := true, r := .Err k}]
            doneLog := s.doneLog ++ [c'.id]}
          = (rest.map EvalContext.id ++
              (wakeSplit s.time s.blocked).1.map (fun p => p.1.id)) ++
            (s.doneQ.map EvalContext.id ++ [c.id]) := by
        simp [qids, hid']
      have hperm2 : List.Perm (qids {s with
            ready := rest
            blocked := (wakeSplit s.time s.blocked).1
            doneQ := s.doneQ ++ [{c' with done := true, r := .Err k}]
            doneLog := s.doneLog ++ [c'.id]})
          (c.id :: ((rest.map EvalContext.id ++
                (wakeSplit s.time s.blocked).1.map (fun p => p.1.id)) ++
              s.doneQ.map EvalContext.id)) := by
        rw [hq]
        exact perm_can6 c.id (rest.map EvalContext.id ++
          (wakeSplit s.time s.blocked).1.map (fun p => p.1.id))
          (s.doneQ.map EvalContext.id)
      refine ⟨hperm2.symm.nodup hnd2, hrestf, hmidbf, ?_,
              fun i hi => hbnd2 i (hperm2.subset hi), hn1⟩
      intro d hd
      rcases List.mem_append.mp hd with hd | hd
      · exact hdf d hd
      · rw [List.mem_singleton.mp hd]
    | spawnedO body =>
      have hdc : c'.done = false := by
        rw [← hcd]
        rcases stepCtx_done c with hh | ⟨w, hw, _⟩
        · rw [hsc] at hh; exact hh
        · rw [hsc] at hw; exact absurd hw (by simp)
      by_cases hm : DEFAULT_STACK_SIZE ≤ s.freeMem
      · have hres : doOnePass s = {s with
              ready := rest ++ [{c' with r := .I s.nextCid, app_cont := true},
                                newCtx body DEFAULT_STACK_SIZE s.nextCid s.time]
              blocked := (wakeSplit s.time s.blocked).1
              nextCid := s.nextCid + 1
              freeMem := s.freeMem - DEFAULT_STACK_SIZE} := by
          simp only [doOnePass, hready, hsc, hm, if_true]
        rw [hres]
        have hq : qids {s with
              ready := rest ++ [{c' with r := .I s.nextCid, app_cont := true},
                                newCtx body DEFAULT_STACK_SIZE s.nextCid s.time]
              blocked := (wakeSplit s.time s.blocked).1
              nextCid := s.nextCid + 1
              freeMem := s.freeMem - DEFAULT_STACK_SIZE}
            = ((rest.map EvalContext.id ++ [c.id, s.nextCid]) ++
                (wakeSplit s.time s.blocked).1.map (fun p => p.1.id)) ++
              s.doneQ.map EvalContext.id := by
          simp [qids, hid', newCtx]
        have hperm2 : List.Perm (qids {s with
              ready := rest ++ [{c' with r := .I s.nextCid, app_cont := true},
                                newCtx body DEFAULT_STACK_SIZE s.nextCid s.time]
              blocked := (wakeSplit s.time s.blocked).1
              nextCid := s.nextCid + 1
              freeMem := s.freeMem - DEFAULT_STACK_SIZE})
            (c.id :: s.nextCid :: ((rest.map EvalContext.id ++
                (wakeSplit s.time s.blocked).1.map (fun p => p.1.id)) ++
              s.doneQ.map EvalContext.id)) := by
          rw [hq]
          have h3 : List.Perm (rest.map EvalContext.id ++ [c.id, s.nextCid])
              (c.id :: s.nextCid :: rest.map EvalContext.id) :=
            List.perm_append_comm
          exact (h3.append_right _).append_right _
        have hfresh : s.nextCid ∉ c.id :: ((rest.map EvalContext.id ++
            (wakeSplit s.time s.blocked).1.map (fun p => p.1.id)) ++
            s.doneQ.map EvalContext.id) := fun hmem => by
          have := (hbnd2 _ hmem).2
          omega
        have hnd3 : (c.id :: s.nextCid :: ((rest.map EvalContext.id ++
            (wakeSplit s.time s.blocked).1.map (fun p => p.1.id)) ++
            s.doneQ.map EvalContext.id)).Nodup := by
          rw [List.nodup_cons] at hnd2 ⊢
          rw [List.nodup_cons]
          refine ⟨?_, ?_, hnd2.2⟩
          · intro hmem
            rcases List.mem_cons.mp hmem with hh | hh
            · have := (hbnd2 c.id (List.mem_cons_self _ _)).2
              omega
            · exact hnd2.1 hh
          · intro hmem
            exact hfresh (List.mem_cons_of_mem _ hmem)
        refine ⟨hperm2.symm.nodup hnd3, ?_, hmidbf, hdf, ?_, ?_⟩
        · intro d hd
          rcases List.mem_append.mp hd with hd | hd
          · exact hrestf d hd
          · rcases List.mem_cons.mp hd with hh | hh
            · rw [hh]
              exact hdc
            · rw [List.mem_singleton.mp hh]
              rfl
        · intro i hi
          have hi2 := hperm2.subset hi
          show 0 < i ∧ i < s.nextCid + 1
          rcases List.mem_cons.mp hi2 with rfl | hi2
          · have := hbnd2 c.id (List.mem_cons_self _ _)
            omega
          · rcases List.mem_cons.mp hi2 with rfl | hi2
            · omega
            · have := hbnd2 i (List.mem_cons_of_mem _ hi2)
              omega
        · show 1 ≤ s.nextCid + 1
          omega
      · have hres : doOnePass s = {s with
              ready := rest ++ [{c' with r := .I 0, app_cont := true}]
              blocked := (wakeSplit s.time s.blocked).1} := by
          simp only [doOnePass, hready, hsc, hm, if_false]
        rw [hres]
        have hq : qids {s with
              ready := rest ++ [{c' with r := .I 0, app_cont := true}]
              blocked := (wakeSplit s.time s.blocked).1}
            = ((rest.map EvalContext.id ++ [c.id]) ++
                (wakeSplit s.time s.blocked).1.map (fun p => p.1.id)) ++
              s.doneQ.map EvalContext.id := by
          simp [qids, hid']
        have hperm2 : List.Perm (qids {s with
              ready := rest ++ [{c' with r := .I 0, app_cont := true}]
              blocked := (wakeSplit s.time s.blocked).1})
            (c.id :: ((rest.map EvalContext.id ++
                (wakeSplit s.time s.blocked).1.map (fun p => p.1.id)) ++
              s.doneQ.map EvalContext.id)) := by
          rw [hq]
          exact perm_can1 c.id (rest.map EvalContext.id)
            ((wakeSplit s.time s.blocked).1.map (fun p => p.1.id))
            (s.doneQ.map EvalContext.id)
        refine ⟨hperm2.symm.nodup hnd2, ?_, hmidbf, hdf,
                fun i hi => hbnd2 i (hperm2.subset hi), hn1⟩
        intro d hd
        rcases List.mem_append.mp hd with hd | hd
        · exact hrestf d hd
        · rw [List.mem_singleton.mp hd]
          exact hdc

/-- The invariant only concerns the queues and the id source. -/
theorem inv_of_eq_queues {s s' : SchedState} (h1 : s'.ready = s.ready)
    (h2 : s'.blocked = s.blocked) (h3 : s'.doneQ = s.doneQ)
    (h4 : s'.nextCid = s.nextCid) (h : ContextInvariant s) : ContextInvariant s' := by
  obtain ⟨hnd, hrf, hbf, hdf, hb, hn1⟩ := h
  have hq : qids s' = qids s := by rw [qids, h1, h2, h3, ← qids]
  refine ⟨hq ▸ hnd, h1 ▸ hrf, h2 ▸ hbf, h3 ▸ hdf, ?_, h4 ▸ hn1⟩
  intro i hi
  rw [h4]
  exact hb i (hq ▸ hi)

/-- Invariant preservation: one scheduler-loop iteration. -/
theorem inv_schedIter (s : SchedState) (h : ContextInvariant s) :
    ContextInvariant (schedIter s) := by
  rw [schedIter]
  cases hev : s.evState with
  | RUNNING => exact inv_doOnePass s h
  | STEP => exact inv_of_eq_queues rfl rfl rfl rfl (inv_doOnePass s h)
  | INIT => exact h
  | PAUSED => exact h
  | KILL => exact h

/-- Invariant preservation: the asynchronous control requests and the clock. -/
theorem inv_control (s : SchedState) (h : ContextInvariant s) :
    ContextInvariant (lbm_pause_eval s) ∧ ContextInvariant (lbm_continue_eval s) ∧
    ContextInvariant (lbm_step_eval s) ∧ ContextInvariant (lbm_kill_eval s) ∧
    ∀ t, ContextInvariant (lbm_set_time s t) := by
  refine ⟨?_, ?_, ?_, ?_, ?_⟩
  · rw [lbm_pause_eval]
    split
    · exact h
    · exact inv_of_eq_queues rfl rfl rfl rfl h
  · rw [lbm_continue_eval]
    split
    · exact inv_of_eq_queues rfl rfl rfl rfl h
    · exact h
  · rw [lbm_step_eval]
    split
    · exact inv_of_eq_queues rfl rfl rfl rfl h
    · exact h
  · exact inv_of_eq_queues rfl rfl rfl rfl h
  · intro t
    exact inv_of_eq_queues rfl rfl rfl rfl h

/-- The initial state satisfies the invariant. -/
theorem inv_init (mem : Nat) : ContextInvariant (lbm_eval_init mem) := by
  refine ⟨?_, ?_, ?_, ?_, ?_, ?_⟩ <;> simp [qids, lbm_eval_init]

/-- C2: the queue-membership invariant.  In every scheduler state reachable
from initialization through the control API (launch, send, remove), the
scheduler loop (step) and the in-evaluator spawn handled inside the loop's
pass, every existing context occurs in exactly one of the three queues
(the combined id list has no duplicates), a context's `done` flag is `true`
exactly when it sits in the done queue (`false` on ready and blocked,
`true` on done), and every issued id is nonzero and below the id source. -/
theorem context_queue_invariant (s : SchedState) (h : Reachable s) :
    ContextInvariant s := by
  induction h with
  | init mem => exact inv_init mem
  | launch e n _ ih => exact inv_launch _ e n ih
  | send cid m _ ih => exact inv_send _ cid m ih
  | remove cid _ ih => exact inv_remove _ cid ih
  | iter _ ih => exact inv_schedIter _ ih
  | pause _ ih => exact (inv_control _ ih).1
  | cont _ ih => exact (inv_control _ ih).2.1
  | oneStep _ ih => exact (inv_control _ ih).2.2.1
  | kill _ ih => exact (inv_control _ ih).2.2.2.1
  | clock t _ ih => exact (inv_control _ ih).2.2.2.2 t

/-- Witness for C2: a concrete reachable state (init, launch a program,
run one scheduler iteration) satisfies the invariant. -/
theorem context_queue_invariant_witness :
    ContextInvariant (schedIter (lbm_eval_program_ext (lbm_eval_init 300) (.num 1) 4).2) :=
  context_queue_invariant _
    (Reachable.iter (Reachable.launch (.num 1) 4 (Reachable.init 300)))

/-! ## C6: tail calls do not grow the continuation stack -/

/-- One full iteration of the self-recursive loop (19 evaluator steps) takes
the counter from `m + 1` to `m`, restores the identical configuration, and
touches at most 3 continuation-stack slots. -/
theorem loop_iter19 (m : Nat) :
    stepsMaxK 19 (loopCtx (↑m + 1)) = some (loopCtx ↑m, 3) := by
  have h0 : ¬ ((m : Int) + 1 = 0) := by omega
  have h1 : ((m : Int) + 1 + -1) = ↑m := by ring
  simp [stepsMaxK, stepCtx, loopCtx, loopBody, loopClo, lookupEnv, pushK, h0, h1]

/-- The 10-step launch prefix: evaluating `((loopFun loopFun) m)` from the
freshly launched context reaches the loop-head configuration, also within 3
stack slots. -/
theorem loop_prefix10 (m : Nat) :
    stepsMaxK 10 (newCtx (loopProg m) 8 1 0) = some (loopCtx ↑m, 3) := by
  simp [stepsMaxK, stepCtx, newCtx, loopProg, loopFun, loopBody, loopClo, lookupEnv,
        pushK, loopCtx, UINT32]

theorem loop_base6 : stepsMaxK 6 (loopCtx 0) = some (loopFinal, 3) := rfl

theorem loop_run (m : Nat) :
    stepsMaxK (19 * m + 6) (loopCtx ↑m) = some (loopFinal, 3) := by
  induction m with
  | zero => exact loop_base6
  | succ m ih =>
    have heq : 19 * (m + 1) + 6 = 19 + (19 * m + 6) := by ring
    have hcast : ((m + 1 : Nat) : Int) = ↑m + 1 := by push_cast; ring
    rw [heq, hcast]
    have := stepsMaxK_trans (loop_iter19 m) ih
    simpa using this

theorem loop_full (m : Nat) :
    stepsMaxK (10 + (19 * m + 6)) (newCtx (loopProg m) 8 1 0) = some (loopFinal, 3) := by
  have := stepsMaxK_trans (loop_prefix10 m) (loop_run m)
  simpa using this

theorem schedIterN_add (a b : Nat) (s : SchedState) :
    schedIterN (a + b) s = schedIterN b (schedIterN a s) := by
  induction a generalizing s with
  | zero => rw [Nat.zero_add]; rfl
  | succ a ih =>
    have : a + 1 + b = (a + b) + 1 := by omega
    rw [this]
    show schedIterN (a + b) (schedIter s) = _
    rw [ih (schedIter s)]
    rfl

/-- Lifting a run of Continue-steps of a lone context to the scheduler. -/
theorem schedIter_single : ∀ (n : Nat) (s : SchedState) (c c' : EvalContext),
    s.evState = .RUNNING → s.blocked = [] → s.ready = [c] →
    stepsOk n c = some c' →
    schedIterN n s = {s with ready := [c'], blocked := []} := by
  intro n
  induction n with
  | zero =>
    intro s c c' h1 h2 h3 h
    obtain rfl : c = c' := by simpa [stepsOk] using h
    show s = {s with ready := [c], blocked := []}
    rw [← h2, ← h3]
  | succ n ih =>
    intro s c c' h1 h2 h3 h
    rw [stepsOk] at h
    rcases hsc : stepCtx c with ⟨c1, o⟩
    rw [hsc] at h
    cases o with
    | continueO =>
      have hstep : schedIter s = {s with ready := [c1], blocked := []} := by
        simp only [schedIter, h1, doOnePass, h2, h3, wakeSplit, List.append_nil, hsc]
        rfl
      show schedIterN n (schedIter s) = _
      rw [hstep]
      exact ih {s with ready := [c1], blocked := []} c1 c' h1 rfl rfl h
    | blockedO w => simp at h
    | finishedO v => simp at h
    | errorO k => simp at h
    | spawnedO b => simp at h

/-- C6: tail calls do not grow the continuation stack.  For every iteration
count `m`, the self-recursive guest loop `((loopFun loopFun) m)` — whose
recursive call sits in tail position — runs for `10 + 19m + 6` evaluator
steps inside a context whose continuation stack has capacity 8, and along
the whole run the stack `K` never holds more than 3 frames (a bound
independent of `m`, and far below the recursion depth once `m > 8`); the
next step pops the sentinel and finishes with the value 42, and at the
scheduler level launching the loop with stack size 8 and running
`10 + 19m + 6 + 1` iterations ends with `lbm_remove_done_ctx` handing back
the result 42 — no stack exhaustion for any `m`. -/
theorem tail_call_bounded_stack (m : Nat) :
    stepsMaxK (10 + (19 * m + 6)) (newCtx (loopProg m) 8 1 0) = some (loopFinal, 3) ∧
    (newCtx (loopProg m) 8 1 0).ksize = 8 ∧
    stepCtx loopFinal = ({loopFinal with done := true, K := []}, .finishedO (.I 42)) ∧
    (lbm_remove_done_ctx
        (schedIterN (10 + (19 * m + 6) + 1)
          (lbm_eval_program_ext {lbm_eval_init 8 with evState := .RUNNING}
            (loopProg m) 8).2) 1).1 = some (.I 42) := by
  refine ⟨loop_full m, rfl, rfl, ?_⟩
  have hlaunch : (lbm_eval_program_ext {lbm_eval_init 8 with evState := .RUNNING}
      (loopProg m) 8).2
      = {lbm_eval_init 8 with
          evState := .RUNNING
          ready := [newCtx (loopProg m) 8 1 0]
          nextCid := 2
          freeMem := 0} := by
    simp [lbm_eval_program_ext, lbm_eval_init]
  rw [hlaunch, schedIterN_add]
  have hN := schedIter_single (10 + (19 * m + 6))
    {lbm_eval_init 8 with
      evState := .RUNNING
      ready := [newCtx (loopProg m) 8 1 0]
      nextCid := 2
      freeMem := 0}
    (newCtx (loopProg m) 8 1 0) loopFinal rfl rfl rfl
    (stepsMaxK_imp_stepsOk (loop_full m))
  rw [hN]
  rfl

/-! ## C3: the CPS machine refines the reference direct evaluation -/

theorem stepsOk_one {c c1 : EvalContext} (h : stepCtx c = (c1, .continueO)) :
    stepsOk 1 c = some c1 := by
  rw [stepsOk_succ_cont 0 h]
  rfl

/-- Core simulation: if the reference direct evaluation of `e` in `env`
produces value `v` with continuation-stack need `d`, then from any context
about to reduce `e` in `env` whose stack has `d` slots of headroom, the CPS
machine reaches — through Continue steps only — the configuration holding
`v` in the result register in apply-continuation mode, with the
continuation stack restored and all other context fields untouched. -/
theorem refine_aux : ∀ (fuel : Nat) (env : List (String × LVal)) (e : Expr)
    (v : LVal) (d : Nat),
    refEvalD fuel env e = some (v, d) →
    ∀ (prog : List Expr) (mb : List LVal) (r0 : LVal) (K : List Frame)
      (ks ts su i : Nat),
    K.length + d ≤ ks →
    ∃ (n : Nat) (X : Expr) (Y : List (String × LVal)),
      stepsOk n ⟨prog, e, env, mb, r0, false, false, K, ks, ts, su, i⟩ =
        some ⟨prog, X, Y, mb, v, false, true, K, ks, ts, su, i⟩ := by
  intro fuel
  induction fuel with
  | zero =>
    intro env e v d h
    simp [refEvalD] at h
  | succ fuel ih =>
    intro env e v d h prog mb r0 K ks ts su i hcap
    cases e with
    | num n =>
      simp only [refEvalD, Option.some.injEq, Prod.mk.injEq] at h
      obtain ⟨rfl, rfl⟩ := h
      exact ⟨1, .num n, env, stepsOk_one (by simp [stepCtx])⟩
    | boolE b =>
      simp only [refEvalD, Option.some.injEq, Prod.mk.injEq] at h
      obtain ⟨rfl, rfl⟩ := h
      exact ⟨1, .boolE b, env, stepsOk_one (by simp [stepCtx])⟩
    | var x =>
      simp only [refEvalD, Option.map_eq_some'] at h
      obtain ⟨w, hw, hq⟩ := h
      simp only [Prod.mk.injEq] at hq
      obtain ⟨rfl, rfl⟩ := hq
      exact ⟨1, .var x, env, stepsOk_one (by simp [stepCtx, hw])⟩
    | lam x body =>
      simp only [refEvalD, Option.some.injEq, Prod.mk.injEq] at h
      obtain ⟨rfl, rfl⟩ := h
      exact ⟨1, .lam x body, env, stepsOk_one (by simp [stepCtx])⟩
    | ifE cond t e' =>
      rw [refEvalD] at h
      rcases hc : refEvalD fuel env cond with _ | ⟨vc, dc⟩ <;> rw [hc] at h
      · simp at h
      · rcases vc with _ | nn | bb | ⟨x, body, cenv⟩ | kk <;> try simp at h
        cases bb with
        | true =>
          simp only [Option.map_eq_some'] at h
          obtain ⟨⟨vt, dt⟩, ht, hq⟩ := h
          simp only [Prod.mk.injEq] at hq
          obtain ⟨rfl, rfl⟩ := hq
          have hlt : K.length < ks := by omega
          have s1 : stepsOk 1 (⟨prog, .ifE cond t e', env, mb, r0, false, false,
              K, ks, ts, su, i⟩ : EvalContext)
              = some ⟨prog, cond, env, mb, r0, false, false,
                  .ifF t e' env :: K, ks, ts, su, i⟩ :=
            stepsOk_one (by simp [stepCtx, pushK, hlt])
          obtain ⟨n1, X1, Y1, s2⟩ := ih env cond (.B true) dc hc prog mb r0
            (.ifF t e' env :: K) ks ts su i (by simp; omega)
          have s3 : stepsOk 1 (⟨prog, X1, Y1, mb, .B true, false, true,
              .ifF t e' env :: K, ks, ts, su, i⟩ : EvalContext)
              = some ⟨prog, t, env, mb, .B true, false, false, K, ks, ts, su, i⟩ :=
            stepsOk_one (by simp [stepCtx])
          obtain ⟨n2, X2, Y2, s4⟩ := ih env t vt dt ht prog mb (.B true) K
            ks ts su i (by omega)
          exact ⟨1 + n1 + 1 + n2, X2, Y2,
            stepsOk_trans (stepsOk_trans (stepsOk_trans s1 s2) s3) s4⟩
        | false =>
          simp only [Option.map_eq_some'] at h
          obtain ⟨⟨vt, dt⟩, ht, hq⟩ := h
          simp only [Prod.mk.injEq] at hq
          obtain ⟨rfl, rfl⟩ := hq
          have hlt : K.length < ks := by omega
          have s1 : stepsOk 1 (⟨prog, .ifE cond t e', env, mb, r0, false, false,
              K, ks, ts, su, i⟩ : EvalContext)
              = some ⟨prog, cond, env, mb, r0, false, false,
                  .ifF t e' env :: K, ks, ts, su, i⟩ :=
            stepsOk_one (by simp [stepCtx, pushK, hlt])
          obtain ⟨n1, X1, Y1, s2⟩ := ih env cond (.B false) dc hc prog mb r0
            (.ifF t e' env :: K) ks ts su i (by simp; omega)
          have s3 : stepsOk 1 (⟨prog, X1, Y1, mb, .B false, false, true,
              .ifF t e' env :: K, ks, ts, su, i⟩ : EvalContext)
              = some ⟨prog, e', env, mb, .B false, false, false, K, ks, ts, su, i⟩ :=
            stepsOk_one (by simp [stepCtx])
          obtain ⟨n2, X2, Y2, s4⟩ := ih env e' vt dt ht prog mb (.B false) K
            ks ts su i (by omega)
          exact ⟨1 + n1 + 1 + n2, X2, Y2,
            stepsOk_trans (stepsOk_trans (stepsOk_trans s1 s2) s3) s4⟩
    | eqz a =>
      rw [refEvalD] at h
      rcases ha : refEvalD fuel env a with _ | ⟨va, da⟩ <;> rw [ha] at h
      · simp at h
      · rcases va with _ | nn | bb | ⟨x, body, cenv⟩ | kk <;> try simp at h
        obtain ⟨rfl, rfl⟩ := h
        have hlt : K.length < ks := by omega
        have s1 : stepsOk 1 (⟨prog, .eqz a, env, mb, r0, false, false,
            K, ks, ts, su, i⟩ : EvalContext)
            = some ⟨prog, a, env, mb, r0, false, false, .eqzF :: K, ks, ts, su, i⟩ :=
          stepsOk_one (by simp [stepCtx, pushK, hlt])
        obtain ⟨n1, X1, Y1, s2⟩ := ih env a (.I nn) da ha prog mb r0
          (.eqzF :: K) ks ts su i (by simp; omega)
        have s3 : stepsOk 1 (⟨prog, X1, Y1, mb, .I nn, false, true,
            .eqzF :: K, ks, ts, su, i⟩ : EvalContext)
            = some ⟨prog, X1, Y1, mb, .B (decide (nn = 0)), false, true,
                K, ks, ts, su, i⟩ :=
          stepsOk_one (by simp [stepCtx])
        exact ⟨1 + n1 + 1, X1, Y1, stepsOk_trans (stepsOk_trans s1 s2) s3⟩
    | add a b =>
      rw [refEvalD] at h
      rcases ha : refEvalD fuel env a with _ | ⟨va, da⟩ <;>
        rcases hb : refEvalD fuel env b with _ | ⟨vb, db⟩ <;>
        rw [ha, hb] at h <;> try simp at h
      rcases va with _ | x | bb | ⟨xx, body, cenv⟩ | kk <;> try simp at h
      rcases vb with _ | y | bb | ⟨yy, body2, cenv2⟩ | kk <;> try simp at h
      obtain ⟨rfl, rfl⟩ := h
      have hlt : K.length < ks := by omega
      have s1 : stepsOk 1 (⟨prog, .add a b, env, mb, r0, false, false,
          K, ks, ts, su, i⟩ : EvalContext)
          = some ⟨prog, a, env, mb, r0, false, false,
              .addLF b env :: K, ks, ts, su, i⟩ :=
        stepsOk_one (by simp [stepCtx, pushK, hlt])
      obtain ⟨n1, X1, Y1, s2⟩ := ih env a (.I x) da ha prog mb r0
        (.addLF b env :: K) ks ts su i (by simp; omega)
      have s3 : stepsOk 1 (⟨prog, X1, Y1, mb, .I x, false, true,
          .addLF b env :: K, ks, ts, su, i⟩ : EvalContext)
          = some ⟨prog, b, env, mb, .I x, false, false,
              .addRF (.I x) :: K, ks, ts, su, i⟩ :=
        stepsOk_one (by simp [stepCtx])
      obtain ⟨n2, X2, Y2, s4⟩ := ih env b (.I y) db hb prog mb (.I x)
        (.addRF (.I x) :: K) ks ts su i (by simp; omega)
      have s5 : stepsOk 1 (⟨prog, X2, Y2, mb, .I y, false, true,
          .addRF (.I x) :: K, ks, ts, su, i⟩ : EvalContext)
          = some ⟨prog, X2, Y2, mb, .I (x + y), false, true, K, ks, ts, su, i⟩ :=
        stepsOk_one (by simp [stepCtx])
      exact ⟨1 + n1 + 1 + n2 + 1, X2, Y2,
        stepsOk_trans (stepsOk_trans (stepsOk_trans (stepsOk_trans s1 s2) s3) s4) s5⟩
    | app f a =>
      rw [refEvalD] at h
      rcases hf : refEvalD fuel env f with _ | ⟨vf, df⟩ <;>
        rcases ha : refEvalD fuel env a with _ | ⟨va, da⟩ <;>
        rw [hf, ha] at h <;> try simp at h
      rcases vf with _ | x | bb | ⟨x, body, cenv⟩ | kk <;> try simp at h
      obtain ⟨vw, dw, hbody, rfl, rfl⟩ := h
      have hlt : K.length < ks := by omega
      have s1 : stepsOk 1 (⟨prog, .app f a, env, mb, r0, false, false,
          K, ks, ts, su, i⟩ : EvalContext)
          = some ⟨prog, f, env, mb, r0, false, false,
              .appLF a env :: K, ks, ts, su, i⟩ :=
        stepsOk_one (by simp [stepCtx, pushK, hlt])
      obtain ⟨n1, X1, Y1, s2⟩ := ih env f (.Clo x body cenv) df hf prog mb r0
        (.appLF a env :: K) ks ts su i (by simp; omega)
      have s3 : stepsOk 1 (⟨prog, X1, Y1, mb, .Clo x body cenv, false, true,
          .appLF a env :: K, ks, ts, su, i⟩ : EvalContext)
          = some ⟨prog, a, env, mb, .Clo x body cenv, false, false,
              .appRF (.Clo x body cenv) :: K, ks, ts, su, i⟩ :=
        stepsOk_one (by simp [stepCtx])
      obtain ⟨n2, X2, Y2, s4⟩ := ih env a va da ha prog mb (.Clo x body cenv)
        (.appRF (.Clo x body cenv) :: K) ks ts su i (by simp; omega)
      have s5 : stepsOk 1 (⟨prog, X2, Y2, mb, va, false, true,
          .appRF (.Clo x body cenv) :: K, ks, ts, su, i⟩ : EvalContext)
          = some ⟨prog, body, (x, va) :: cenv, mb, va, false, false,
              K, ks, ts, su, i⟩ :=
        stepsOk_one (by simp [stepCtx])
      obtain ⟨n3, X3, Y3, s6⟩ := ih ((x, va) :: cenv) body vw dw hbody prog mb va
        K ks ts su i (by omega)
      exact ⟨1 + n1 + 1 + n2 + 1 + n3, X3, Y3,
        stepsOk_trans (stepsOk_trans (stepsOk_trans (stepsOk_trans
          (stepsOk_trans s1 s2) s3) s4) s5) s6⟩
    | recv => simp [refEvalD] at h
    | sleepE us => simp [refEvalD] at h
    | yieldE => simp [refEvalD] at h
    | spawnE body => simp [refEvalD] at h

set_option maxRecDepth 8000 in
/-- C3 (amended): round-trip refinement.  For every program `e` containing
no process-control primitives whose reference direct (recursive) evaluation
terminates with value `v` and continuation-stack need `d` fitting the
launched context's default stack capacity (`d + 1 ≤ DEFAULT_STACK_SIZE`),
launching `e` with `lbm_eval_program`, running the scheduler until the
context is Done, and retrieving the result with `lbm_remove_done_ctx`
yields exactly `v`; in particular evaluating `(+ 1 2)` yields 3 and
evaluating `(if #t 1 2)` yields 1. -/
theorem eval_program_roundtrip (e : Expr) (v : LVal) (d fuel mem : Nat)
    (h : refEvalD fuel [] e = some (v, d))
    (hd : d + 1 ≤ DEFAULT_STACK_SIZE) (hmem : DEFAULT_STACK_SIZE ≤ mem) :
    refEval fuel [] e = some v ∧
    (lbm_eval_program {lbm_eval_init mem with evState := .RUNNING} e).1 = 1 ∧
    (∃ n, (lbm_remove_done_ctx
        (schedIterN n
          (lbm_eval_program {lbm_eval_init mem with evState := .RUNNING} e).2) 1).1
      = some v) ∧
    (lbm_remove_done_ctx (schedIterN 6
        (lbm_eval_program {lbm_eval_init 256 with evState := .RUNNING}
          (.add (.num 1) (.num 2))).2) 1).1 = some (.I 3) ∧
    (lbm_remove_done_ctx (schedIterN 5
        (lbm_eval_program {lbm_eval_init 256 with evState := .RUNNING}
          (.ifE (.boolE true) (.num 1) (.num 2))).2) 1).1 = some (.I 1) := by
  have hlaunch : lbm_eval_program {lbm_eval_init mem with evState := .RUNNING} e
      = (1, {lbm_eval_init mem with
              evState := .RUNNING
              ready := [newCtx e DEFAULT_STACK_SIZE 1 0]
              nextCid := 2
              freeMem := mem - DEFAULT_STACK_SIZE}) := by
    simp [lbm_eval_program, lbm_eval_program_ext, lbm_eval_init, hmem]
  obtain ⟨n1, X, Y, hrun⟩ := refine_aux fuel [] e v d h [] [] .nilV [.doneF]
    DEFAULT_STACK_SIZE (0 % UINT32) 0 1 (by simp; omega)
  have hN := schedIter_single n1
    {lbm_eval_init mem with
      evState := .RUNNING
      ready := [newCtx e DEFAULT_STACK_SIZE 1 0]
      nextCid := 2
      freeMem := mem - DEFAULT_STACK_SIZE}
    (newCtx e DEFAULT_STACK_SIZE 1 0)
    ⟨[], X, Y, [], v, false, true, [.doneF], DEFAULT_STACK_SIZE, 0 % UINT32, 0, 1⟩
    rfl rfl rfl hrun
  refine ⟨by simp [refEval, h], by rw [hlaunch], ⟨n1 + 1, ?_⟩, by rfl, by rfl⟩
  rw [hlaunch, schedIterN_add n1 1, hN]
  rfl

/-- Witness for C3: the amended round-trip instantiated at `(+ 1 2)`. -/
theorem eval_program_roundtrip_witness :
    refEval 2 [] (.add (.num 1) (.num 2)) = some (.I 3) ∧
    (∃ n, (lbm_remove_done_ctx
        (schedIterN n
          (lbm_eval_program {lbm_eval_init 256 with evState := .RUNNING}
            (.add (.num 1) (.num 2))).2) 1).1
      = some (.I 3)) :=
  have h := eval_program_roundtrip (.add (.num 1) (.num 2)) (.I 3) 1 2 256
    rfl (by decide) (by decide)
  ⟨h.1, h.2.2.1⟩

set_option maxRecDepth 100000 in
/-- Counterexample to C3 as stated: `deepAdd 300` is a process-control-free
program whose reference direct evaluation yields 1, but its evaluation
depth exceeds the default continuation-stack capacity (256), so the
launched context ends Done with a stack-overflow error value instead of the
reference value — the universal claim fails without a stack-capacity
proviso. -/
theorem eval_program_roundtrip_cex :
    refEval 400 [] (deepAdd 300) = some (.I 1) ∧
    (lbm_remove_done_ctx (schedIterN 256
        (lbm_eval_program {lbm_eval_init 256 with evState := .RUNNING}
          (deepAdd 300)).2) 1).1 = some (.Err .stackOverflow) ∧
    some (.Err .stackOverflow) ≠ (some (.I 1) : Option LVal) := by
  refine ⟨by rfl, by rfl, ?_⟩
  intro hcontra
  injection hcontra with h2
  exact LVal.noConfusion h2

end LbmModel
